import Mathlib

/-!
Verification of the planning and fetching core of `esky`
(`src/esky/summary_finder.py`), via a shallow embedding in Lean 4.

Python strings are modelled as `List Char` (the source runs on Python 2,
where `str` is a byte string; all data relevant to the claims is ASCII).
Machine integers are modelled as `Int`/`Nat` (Python integers are unbounded,
so no wrap-around modelling is needed).  Fallible code is modelled with
`Except PyErr`.  Python's dynamic typing of the qualifier "order" slot
(which holds either an `int` from `KNOWN_QUALIFIERS` or the *string* `"-1"`,
see `parse_qualifier`) is modelled by the sum type `PyOrd`, together with
CPython 2's cross-type comparison rule (any number compares less than any
string, and `==` across those types is `False`).
-/

deriving instance DecidableEq for Except

namespace SummaryFinder

/-- Errors a run of the embedded code can raise.  They model, in order:
`TypeError`, `ValueError`, `NameError` (reading a never-assigned local),
`KeyError`, a comparison that evaluates to `NotImplemented` on both sides
(outside the claims' valid-input scope), `EskyVersionError`,
`EskyDownloadError`, `OSError` (e.g. `os.unlink` on a missing file), and
exhaustion of the fuel our embedding gives a source-level `while` loop. -/
inductive PyErr where
  | typeError (msg : String)
  | valueError (msg : String)
  | nameError
  | keyError
  | notImplementedCmp
  | eskyVersionError
  | downloadError
  | osError
  | outOfFuel
deriving DecidableEq

/-! ## Python string primitives (over `List Char`) -/

/-- ASCII decimal digit test, as used by `str.rstrip("0123456789")`. -/
def isAsciiDigit (c : Char) : Bool := decide ('0' ≤ c) && decide (c ≤ '9')

/-- Python's `s.rstrip(chars)`: drop the longest trailing run of characters
satisfying `p`. -/
def pyRstrip (p : Char → Bool) (s : List Char) : List Char :=
  (s.reverse.dropWhile p).reverse

/-- Python's `s.split(sep)` for a one-character separator: every occurrence
splits, empty pieces are kept, and `"".split(sep) == [""]`. -/
def pySplit (sep : Char) : List Char → List (List Char)
  | [] => [[]]
  | c :: rest =>
    if c = sep then [] :: pySplit sep rest
    else
      match pySplit sep rest with
      | [] => [[c]]
      | h :: t => (c :: h) :: t

/-- Python's `s.partition(sep)` for a one-character separator:
`(before, found?, after)` at the first occurrence of `sep`. -/
def pyPartition (sep : Char) : List Char → List Char × Bool × List Char
  | [] => ([], false, [])
  | c :: rest =>
    if c = sep then ([], true, rest)
    else
      let r := pyPartition sep rest
      (c :: r.1, r.2.1, r.2.2)

/-- Whitespace accepted (and stripped) by Python 2's `int()`. -/
def isPySpace (c : Char) : Bool :=
  c = ' ' || c = '\t' || c = '\n' || c = '\x0d' || c = '\x0b' || c = '\x0c'

/-- Accumulating base-10 value of a digit string (total helper). -/
def digitsAcc (acc : Nat) : List Char → Nat
  | [] => acc
  | c :: rest => digitsAcc (acc * 10 + (c.toNat - 48)) rest

/-- Base-10 value of a nonempty all-digit string, else `none`. -/
def digitsVal (s : List Char) : Option Nat :=
  if s ≠ [] ∧ s.all isAsciiDigit then some (digitsAcc 0 s) else none

/-- Python 2's `int(s)`: optional surrounding whitespace, an optional single
sign, then a nonempty run of decimal digits.  (Exotic inputs such as
non-ASCII digits do not arise in this code.) -/
def pyInt (s : List Char) : Option Int :=
  let t := ((s.dropWhile isPySpace).reverse.dropWhile isPySpace).reverse
  match t with
  | c :: rest =>
    if c = '-' then (digitsVal rest).map (fun n => -(n : Int))
    else if c = '+' then (digitsVal rest).map (fun n => (n : Int))
    else (digitsVal (c :: rest)).map (fun n => (n : Int))
  | [] => none

/-- The decimal digit character for `d % 10`-style arguments. -/
def digitChar : Nat → Char
  | 0 => '0' | 1 => '1' | 2 => '2' | 3 => '3' | 4 => '4'
  | 5 => '5' | 6 => '6' | 7 => '7' | 8 => '8' | _ => '9'

/-- Fuel-driven decimal rendering (most significant digit first); the fuel
`n + 1` in `natRender` always suffices. -/
def natRenderAux : Nat → Nat → List Char → List Char
  | 0, _, acc => acc
  | fuel + 1, n, acc =>
    if n < 10 then digitChar n :: acc
    else natRenderAux fuel (n / 10) (digitChar (n % 10) :: acc)

/-- Python's `str(n)` for a nonnegative integer. -/
def natRender (n : Nat) : List Char := natRenderAux (n + 1) n []

/-- Python's `str(i)` for any integer. -/
def intRender (i : Int) : List Char :=
  if i < 0 then '-' :: natRender i.natAbs else natRender i.toNat

/-- Reference (fuel-free) form of the decimal rendering, used in proofs;
`natRender` computes it (see `natRender_eq_rec`). -/
def natRenderRec (n : Nat) : List Char :=
  if _h : n < 10 then [digitChar n]
  else natRenderRec (n / 10) ++ [digitChar (n % 10)]
decreasing_by exact Nat.div_lt_self (by omega) (by omega)

/-- Python's `sep.join(pieces)` for a one-character separator. -/
def joinSep (sep : Char) : List (List Char) → List Char
  | [] => []
  | [x] => x
  | x :: y :: t => x ++ sep :: joinSep sep (y :: t)

/-- Lexicographic (byte) order of Python 2 `str` values. -/
def strLt : List Char → List Char → Bool
  | [], [] => false
  | [], _ :: _ => true
  | _ :: _, [] => false
  | a :: as, b :: bs => if a < b then true else if b < a then false else strLt as bs

/-! ## Dynamic values in the qualifier "order" slot -/

/-- The value `KNOWN_QUALIFIERS.get(name, "-1")` puts in a parsed qualifier:
an `int` for a known name, the *string* `"-1"` otherwise (the source's
default argument is the string literal `"-1"`, not the integer `-1`). -/
inductive PyOrd where
  | oint (n : Int)
  | ostr (s : List Char)
deriving DecidableEq

/-- Python 2 `==` between an order slot and an `int` literal: `int == int`
compares values; `str == int` is `False`. -/
def pyOrdEqInt (o : PyOrd) (m : Int) : Bool :=
  match o with
  | .oint n => n == m
  | .ostr _ => false

/-- Python 2 `<` between two order slots.  CPython 2 orders any number below
any non-numeric object, and two `str`s lexicographically. -/
def pyOrdLt : PyOrd → PyOrd → Bool
  | .oint a, .oint b => a < b
  | .oint _, .ostr _ => true
  | .ostr _, .oint _ => false
  | .ostr a, .ostr b => strLt a b

/-! ## VersionNumber -/

/-- The `qualifier` attribute of a `VersionNumber`: Python's `False` (no
qualifier), `True` (a wildcard qualifier, from `..._*`), or the triple
`(order, number, name)` built by `parse_qualifier`. -/
inductive Qualifier where
  | qnone
  | qany
  | qnamed (order : PyOrd) (number : Nat) (name : List Char)
deriving DecidableEq

/-- Python truthiness of the `qualifier` attribute (`False` is falsy; `True`
and any tuple are truthy). -/
def qualTruthy : Qualifier → Bool
  | .qnone => false
  | _ => true

/-- A parsed `VersionNumber` object.  `original` models the
`original_string` attribute kept for invalid values (the source stores the
string *after* the `rstrip(".*")`); valid values leave it `[]`.  Dummy
`parts`/`qualifier` on invalid values are never read: every consumer checks
`invalid` first, as the source effectively does by raising or returning
`NotImplemented`. -/
structure VersionNumber where
  invalid : Bool
  parts : List Int
  qualifier : Qualifier
  wildcard : Bool
  original : List Char
deriving DecidableEq

def mkInvalid (orig : List Char) (wildcard : Bool) : VersionNumber :=
  ⟨true, [], .qnone, wildcard, orig⟩

/-- `KNOWN_QUALIFIERS.get(name, "-1")`: a small int for the four known
names, otherwise the default — which in the source is the *string* `"-1"`. -/
def KNOWN_QUALIFIERS_get (name : List Char) : PyOrd :=
  if name = "pre".toList then .oint 0
  else if name = "alpha".toList then .oint 1
  else if name = "beta".toList then .oint 2
  else if name = "rc".toList then .oint 3
  else .ostr "-1".toList

/-- `VersionNumber.parse_qualifier`.  The digit suffix of the body is
nonempty and all digits whenever present, so the source's `int(number_str)`
cannot raise; `digitsVal` is `some` there and the `getD 0` also covers the
source's `else: number = 0` branch. -/
def parse_qualifier (qualifier : List Char) : Qualifier :=
  if qualifier = "final".toList then .qnone
  else
    let name := pyRstrip isAsciiDigit qualifier
    let numberStr := qualifier.drop name.length
    let number := (digitsVal numberStr).getD 0
    .qnamed (KNOWN_QUALIFIERS_get name) number name

/-- `while len(parts) > 1 and parts[-1] == 0: parts.pop()`. -/
def trimTrailingZeros : List Int → List Int
  | [] => []
  | h :: t => h :: (t.reverse.dropWhile (fun x => x == 0)).reverse

/-- `version_string.endswith("*")`. -/
def wildcardOf (s : List Char) : Bool := s.getLast? == some '*'

/-- `version_string.rstrip(".*")`. -/
def rstripDotStar (s : List Char) : List Char :=
  pyRstrip (fun c => c = '.' || c = '*') s

/-- `parts = version_string.split(".")` (after the rstrip). -/
def piecesOf (s : List Char) : List (List Char) := pySplit '.' (rstripDotStar s)

/-- `parts[-1]` before the qualifier split. -/
def lastPieceOf (s : List Char) : List Char := (piecesOf s).getLast?.getD []

/-- `parts[-1].partition("_")`. -/
def partitionOf (s : List Char) : List Char × Bool × List Char :=
  pyPartition '_' (lastPieceOf s)

/-- The strings handed to `map(int, parts)`: all pieces, with the last
replaced by its part before the first `_`. -/
def partStrsOf (s : List Char) : List (List Char) :=
  (piecesOf s).dropLast ++ [(partitionOf s).1]

/-- `VersionNumber.__init__` on a string.  Steps, in source order: detect a
trailing `*`; `rstrip(".*")`; empty remainder is the blank version; split on
`.`; split the last component at the first `_`; `map(int, parts)` (failure
marks the object invalid); trim trailing zeros unless a wildcard; classify
the qualifier, rejecting a wildcard that also carries a qualifier number. -/
def parseVersion (s : List Char) : VersionNumber :=
  let wildcard : Bool := wildcardOf s
  let s' := rstripDotStar s
  if s' = [] then ⟨false, [], .qnone, wildcard, []⟩
  else
    match (partStrsOf s).mapM pyInt with
    | none => mkInvalid s' wildcard
    | some ints =>
      let parts := if wildcard then ints else trimTrailingZeros ints
      if (partitionOf s).2.1 then
        if wildcard ∧ (partitionOf s).2.2 = [] then ⟨false, parts, .qany, wildcard, []⟩
        else
          match parse_qualifier (partitionOf s).2.2 with
          | .qnone => ⟨false, parts, .qnone, wildcard, []⟩
          | .qany => ⟨false, parts, .qany, wildcard, []⟩
          | .qnamed o n nm =>
            if n ≠ 0 ∧ wildcard then mkInvalid s' wildcard
            else ⟨false, parts, .qnamed o n nm, wildcard, []⟩
      else ⟨false, parts, .qnone, wildcard, []⟩

/-- `VersionNumber.__str__`, the canonical rendering. -/
def renderVersion (v : VersionNumber) : List Char :=
  if v.invalid then v.original
  else if v.wildcard ∧ v.parts = [] then ['*']
  else
    let base := joinSep '.' (v.parts.map intRender)
    if v.wildcard ∧ qualTruthy v.qualifier then
      match v.qualifier with
      | .qany => base ++ ['_', '*']
      | .qnamed _ _ nm => base ++ '_' :: (nm ++ ['*'])
      | .qnone => base
    else if v.wildcard then base ++ ['.', '*']
    else
      match v.qualifier with
      | .qnamed _ n nm => base ++ '_' :: (nm ++ (if n = 0 then [] else natRender n))
      | _ => base

/-- `VersionNumber.__eq__` as observed through Python's `==` operator on the
distinct objects our claims compare: both operands valid and the
`(qualifier, parts, wildcard)` triple identical; with an invalid operand the
rich-comparison protocol falls all the way back to identity, i.e. `False`
here. -/
def eqPy (a b : VersionNumber) : Bool :=
  !a.invalid && !b.invalid && a.qualifier == b.qualifier
    && a.parts == b.parts && a.wildcard == b.wildcard

/-- The `izip_longest` loop of `__cmp__` over the numeric parts.  A `none`
fill on the left returns `OTHER_GREATER`, on the right `SELF_GREATER`;
otherwise the first unequal pair decides. -/
def cmpParts : List Int → List Int → Ordering
  | [], [] => .eq
  | [], _ :: _ => .lt
  | _ :: _, [] => .gt
  | mine :: ms, yours :: ys =>
    if yours > mine then .lt
    else if mine > yours then .gt
    else cmpParts ms ys

/-- `VersionNumber.__cmp__`.  `NotImplemented` results (an invalid operand)
are modelled as an error: no claim compares invalid versions.  The `.qany`
qualifier rows are unreachable for parser-produced values (a wildcard
qualifier forces the wildcard flag, which errors earlier); Python would fail
to unpack the bool `True` there. -/
def vcmp (a b : VersionNumber) : Except PyErr Ordering :=
  if b.invalid then .error .notImplementedCmp
  else if a.invalid then .error .notImplementedCmp
  else if a.parts = [] ∨ b.parts = [] then
    .error (.valueError "cannot compare empty version numbers")
  else if a.wildcard ∨ b.wildcard then
    .error (.valueError "cannot compare wildcard version numbers")
  else
    match cmpParts a.parts b.parts with
    | .lt => .ok .lt
    | .gt => .ok .gt
    | .eq =>
      match a.qualifier, b.qualifier with
      | .qnamed _ _ _, .qnone => .ok .lt
      | .qnone, .qnamed _ _ _ => .ok .gt
      | .qnone, .qnone => .ok .eq
      | .qnamed mo mn _, .qnamed yo yn _ =>
        if pyOrdEqInt mo (-1) || pyOrdEqInt yo (-1) then
          .error (.valueError "cannot compare unrecognized qualifiers")
        else if pyOrdLt mo yo then .ok .lt
        else if pyOrdLt yo mo then .ok .gt
        else if mn < yn then .ok .lt
        else if yn < mn then .ok .gt
        else .ok .eq
      | .qany, _ => .error (.typeError "cannot unpack bool qualifier")
      | _, .qany => .error (.typeError "cannot unpack bool qualifier")

/-- Python `a > b` through `__cmp__`. -/
def vgtE (a b : VersionNumber) : Except PyErr Bool :=
  (vcmp a b).map (fun o => o == .gt)

/-- Python `a < b` through `__cmp__`. -/
def vltE (a b : VersionNumber) : Except PyErr Bool :=
  (vcmp a b).map (fun o => o == .lt)

/-- The `izip_longest` loop of `wildcard_match`: `some b` models an early
`return b`, `none` falling off the loop.  `sq` is the truthiness of the
wildcard's own qualifier (used when the candidate continues past the
wildcard's parts).  When the candidate is exhausted (`yours = None`):
`elif yours == None and mine != 0` returns `False` for a nonzero component,
and for a zero component the next branch `elif yours != mine` still fires —
`None != 0` is `True` in Python 2 — and returns `False` as well, so this
case is `some false` unconditionally (the source comment's
"`1.0.0.*` matches `1.0`" rule is not what the code computes). -/
def wcLoop (sq : Bool) : List Int → List Int → Option Bool
  | [], [] => none
  | [], _ :: _ => some (if sq then false else true)
  | _ :: _, [] => some false
  | m :: ms, y :: ys => if y ≠ m then some false else wcLoop sq ms ys

/-- `VersionNumber.wildcard_match`.  An invalid operand raises `TypeError`;
a candidate with the bool qualifier `True` reaching the final name check
would be Python's `True[2]`, another `TypeError` (unreachable for the
claims' inputs). -/
def wildcardMatchE (self other : VersionNumber) : Except PyErr Bool :=
  if other.invalid then .error (.typeError "not a valid version number")
  else if self.invalid then .error (.typeError "not a valid version number")
  else if self.wildcard = false then .ok false
  else if self.parts = [] then .ok true
  else if other.parts = [] then .ok false
  else if qualTruthy other.qualifier ≠ qualTruthy self.qualifier then .ok false
  else
    match wcLoop (qualTruthy self.qualifier) self.parts other.parts with
    | some b => .ok b
    | none =>
      match self.qualifier with
      | .qnone => .ok true
      | .qany => .ok true
      | .qnamed _ _ nm =>
        match other.qualifier with
        | .qnamed _ _ onm => .ok (nm == onm)
        | _ => .error (.typeError "bool qualifier is not subscriptable")

/-- `VersionNumber.__contains__`: wildcard containment, else equality. -/
def containsE (self other : VersionNumber) : Except PyErr Bool :=
  if self.wildcard then wildcardMatchE self other
  else .ok (eqPy self other)

/-- `VersionNumber.in_any` over already-parsed patterns (as stored in
`KnownFile.from_versions`). -/
def inAnyE (self : VersionNumber) : List VersionNumber → Except PyErr Bool
  | [] => .ok false
  | p :: rest => do
    let b ← containsE p self
    if b then .ok true else inAnyE self rest

/-! ## KnownFile, the downloads directory, hashing and fetching

The claims observe a single artifact's local file, so the downloads
directory is modelled as `Fs := Option (List Nat)`: `none` when
`get_full_filename(app)` does not exist, otherwise the file's bytes.  The
SHA-256 implementation lives in `hashlib`, outside this repository, so it is
a parameter `hashFn` of every definition that hashes. -/

def KB : Nat := 1024
def MB : Nat := KB * 1024

/-- The bytes of the artifact's local file, when it exists. -/
abbrev Fs := Option (List Nat)

structure KnownFile where
  app_name : String
  platform : String
  version : VersionNumber
  from_versions : List VersionNumber
  url : List Char
  size : Nat
  hash : Option String
deriving DecidableEq

/-- `multiple_versions`: split the `from_versions` field on commas and parse
each pattern. -/
def multiple_versions (fromVersion : List Char) : List VersionNumber :=
  (pySplit ',' fromVersion).map parseVersion

/-- `KnownFile.__init__` from the summary-row strings (the declared size is
a nonnegative decimal token, hence `Nat`). -/
def mkKnownFile (appName platform : String) (version fromVersions url : List Char)
    (size : Nat) (hash : Option String) : KnownFile :=
  ⟨appName, platform, parseVersion version, multiple_versions fromVersions, url, size, hash⟩

/-- `file.truncate(size)` on a file opened `rb+`: shrink a longer file,
zero-extend a shorter one (POSIX semantics). -/
def truncExtend (c : List Nat) (size : Nat) : List Nat :=
  if size ≤ c.length then c.take size else c ++ List.replicate (size - c.length) 0

/-- `hash_file(full_filename, size)`: truncate the on-disk file to `size`
when `size != 0`, then hash it (the 1 KiB read loop hashes exactly the whole
remaining content).  Returns the digest and the file's new content — the
truncation is a real on-disk side effect. -/
def hashFileM (hashFn : List Nat → String) (content : List Nat) (size : Nat) :
    String × List Nat :=
  let content' := if size = 0 then content else truncExtend content size
  (hashFn content', content')

/-- `KnownFile.check_hash(app, actual_size=-1, hash=None)`.  `actualSizeArg`
and `hashArg` model the optional arguments (`none` = the defaults).  Returns
the verdict and the (possibly truncated) file state. -/
def checkHash (hashFn : List Nat → String) (f : KnownFile) (fs : Fs)
    (actualSizeArg : Option Nat) (hashArg : Option String) : Bool × Fs :=
  match fs with
  | none => (false, fs)
  | some content =>
    let actualSize := actualSizeArg.getD content.length
    match f.hash with
    | none =>
      if f.size = 0 then (decide (actualSize ≠ 0), fs)
      else (decide (actualSize = f.size), fs)
    | some declared =>
      match hashArg with
      | some h => (decide (h = declared), fs)
      | none =>
        let r := hashFileM hashFn content f.size
        (decide (r.1 = declared), some r.2)

/-- The empty version `VersionNumber("")`, used by `get_cost` and
`_prepare_version` to recognize full installs. -/
def emptyVersion : VersionNumber := parseVersion []

/-- `KnownFile.get_cost(app)`.  `check_hash` cannot change the file here:
either the file is absent, or the claims' scenarios call this with no local
file at all; the returned state is therefore dropped. -/
def getCostE (hashFn : List Nat → String) (fs : Fs) (f : KnownFile) :
    Except PyErr Nat := do
  let size ←
    if f.size > 0 then pure f.size
    else do
      let b ← inAnyE emptyVersion f.from_versions
      pure (if b then 10 * MB else 2 * MB)
  let ch := checkHash hashFn f fs none none
  pure (if ch.1 then max 1 (size / 1024) else size)

/-- `urlparse(url).path` for the absolute `scheme://netloc/path` URLs a
summary holds (query and fragment are cut first, then the netloc up to the
first `/`); a URL with no `://` is all path. -/
def afterSchemeNetloc : List Char → Option (List Char)
  | ':' :: '/' :: '/' :: rest => some (rest.dropWhile (fun c => c ≠ '/'))
  | _ :: rest => afterSchemeNetloc rest
  | [] => none

def urlPath (url : List Char) : List Char :=
  let u := url.takeWhile (fun c => c ≠ '?' && c ≠ '#')
  match afterSchemeNetloc u with
  | some p => p
  | none => u

/-- `os.path.basename`. -/
def pyBasename (p : List Char) : List Char :=
  (p.reverse.takeWhile (fun c => c ≠ '/')).reverse

/-- `KnownFile.get_filename()`. -/
def getFilename (f : KnownFile) : List Char := pyBasename (urlPath f.url)

/-- `SummaryVersionFinder.identify_file`.  With two or more `KnownFile`
records sharing the local file's basename, the source runs
`hash = hash_file(full_filename)` — but `hash_file` is
`def hash_file(full_filename, size)`, so the call is one argument short and
raises `TypeError` before any candidate is checked. -/
def identifyFile (knownFiles : List KnownFile) (filename : List Char) :
    Except PyErr (Option KnownFile) :=
  let found := knownFiles.filter (fun f => getFilename f == filename)
  match found with
  | [] => .ok none
  | [f] => .ok (some f)
  | _ => .error (.typeError "hash_file() takes exactly 2 arguments (1 given)")

/-- One scripted network response for `KnownFile.fetch`: the bytes the
streaming loop writes to the file, and whether the transfer then completes
(`false` models a transport exception after those bytes). -/
abbrev NetScript := List (List Nat × Bool)

/-- The tail of each `fetch` loop iteration: the stall check
(`resumed_from == seek_to`), then the download attempt.  The download sets
`resumed_from = seek_to`, opens in append mode iff `seek_to > 0` (a byte
range request), and streams the scripted response; an empty script models
`urlopen` raising.  `k` is the next loop iteration (the recursive call of
`fetchLoop` with the remaining fuel), applied to the new
`tries_left`, `resumed_from`, `seek_to`, file and script. -/
def fetchCont (k : Nat → Int → Option Nat → Fs → NetScript → Except PyErr (Fs × NetScript))
    (tries : Nat) (resumedFrom : Int) (seekTo : Option Nat)
    (fs : Fs) (net : NetScript) : Except PyErr (Fs × NetScript) :=
  match seekTo with
  | none => .error .nameError
  | some st =>
    if resumedFrom = (st : Int) then
      match fs with
      | none => .error .osError
      | some _ => k (tries - 1) (-1) (some st) none net
    else
      match net with
      | [] => k (tries - 1) (st : Int) (some st) fs []
      | (body, okFlag) :: rest =>
        let fs' := if st > 0 then some (fs.getD [] ++ body) else some body
        if okFlag then k tries (st : Int) (some st) fs' rest
        else k (tries - 1) (st : Int) (some st) fs' rest

/-- The `while tries_left > 0` loop of `KnownFile.fetch`.  State, in order:
fuel for the embedding, `tries_left`, `resumed_from` (an `int`, initially
`-1`), `seek_to` (`none` while the local variable is still unassigned —
reading it then is Python's `NameError`), the local file, and the remaining
scripted responses.  Success returns the file and unconsumed script. -/
def fetchLoop (hashFn : List Nat → String) (f : KnownFile) :
    Nat → Nat → Int → Option Nat → Fs → NetScript → Except PyErr (Fs × NetScript)
  | 0, _, _, _, _, _ => .error .outOfFuel
  | _ + 1, 0, _, _, _, _ => .error .downloadError
  | fuel + 1, tries, resumedFrom, seekTo, fs, net =>
    match fs with
    | some content =>
      let actualSize := content.length
      if f.size = 0 then
        if actualSize > 0 then .ok (fs, net)
        else fetchCont (fetchLoop hashFn f fuel) tries resumedFrom (some 0) fs net
      else if actualSize < f.size then
        fetchCont (fetchLoop hashFn f fuel) tries resumedFrom (some actualSize) fs net
      else
        let ch := checkHash hashFn f fs none none
        if ch.1 then .ok (ch.2, net)
        else
          -- a failed check consumes a try and unlinks the file; note that
          -- `seek_to` is NOT assigned on this path and keeps its old value
          fetchCont (fetchLoop hashFn f fuel) (tries - 1) resumedFrom seekTo none net
    | none => fetchCont (fetchLoop hashFn f fuel) tries resumedFrom (some 0) fs net

/-- `KnownFile.fetch(app)` from the caller's view: 2 tries, `resumed_from`
starts at `-1`, `seek_to` unassigned. -/
def fetch (hashFn : List Nat → String) (f : KnownFile) (fuel : Nat)
    (fs : Fs) (net : NetScript) : Except PyErr (Fs × NetScript) :=
  fetchLoop hashFn f fuel 2 (-1) none fs net

/-! ## The upgrade graph

Python `set`s of versions are modelled as duplicate-free lists with
membership through the `==` protocol (`eqPy`; for valid versions this
coincides with the `hash(repr(...))`-plus-`__eq__` semantics of the source).
Sets of `KnownFile` are lists with structural membership: `KnownFile` defines
neither `__eq__` nor `__hash__`, so Python uses identity, and every scenario
below holds structurally distinct records.  Iteration order of a Python set
is unspecified; the list order stands in for it, and no claim below depends
on it. -/

def containsVN (l : List VersionNumber) (v : VersionNumber) : Bool :=
  l.any (fun x => eqPy x v)

def addSetVN (l : List VersionNumber) (v : VersionNumber) : List VersionNumber :=
  if containsVN l v then l else l ++ [v]

/-- Python `set.remove` as observed on a duplicate-free set: drop the first
`==`-equal element. -/
def removeVN : List VersionNumber → VersionNumber → List VersionNumber
  | [], _ => []
  | x :: rest, v => if eqPy x v then rest else x :: removeVN rest v

/-- Python set difference `l - r`. -/
def setDiffVN (l r : List VersionNumber) : List VersionNumber :=
  l.filter (fun x => !(containsVN r x))

def containsKF (l : List KnownFile) (f : KnownFile) : Bool :=
  l.any (fun x => decide (x = f))

def addSetKF (l : List KnownFile) (f : KnownFile) : List KnownFile :=
  if containsKF l f then l else l ++ [f]

/-- `SummaryVersionGraph`: `upgrades` is the defaultdict
`{version: set(upgrade_files)}` as an association list, `files` and
`versions` the two sets. -/
structure Graph where
  upgrades : List (VersionNumber × List KnownFile)
  files : List KnownFile
  versions : List VersionNumber
deriving DecidableEq

/-- `self.upgrades[v]` as a read: the stored set, or the defaultdict's empty
set for a missing key.  (The source also materializes the key on read; no
claim observes the key set, so the embedding keeps reads pure.) -/
def lookupUpgrades (g : Graph) (v : VersionNumber) : List KnownFile :=
  match g.upgrades.find? (fun p => eqPy p.1 v) with
  | some p => p.2
  | none => []

/-- `self.upgrades[v].add(f)`: update the entry for the `==`-equal key (a
dict update keeps the original key object), creating it if missing. -/
def upsertUpgrade : List (VersionNumber × List KnownFile) → VersionNumber →
    KnownFile → List (VersionNumber × List KnownFile)
  | [], v, f => [(v, [f])]
  | (k, fl) :: rest, v, f =>
    if eqPy k v then (k, addSetKF fl f) :: rest
    else (k, fl) :: upsertUpgrade rest v f

/-- The `for file in self.files` wiring loop of `new_version`: no downgrade
filter here, only the `in_any` test. -/
def newVersionScan (version : VersionNumber) :
    List KnownFile → List (VersionNumber × List KnownFile) →
    Except PyErr (List (VersionNumber × List KnownFile))
  | [], ups => .ok ups
  | f :: rest, ups => do
    let b ← inAnyE version f.from_versions
    newVersionScan version rest (if b then upsertUpgrade ups version f else ups)

/-- `SummaryVersionGraph.new_version`. -/
def newVersion (g : Graph) (version : VersionNumber) : Except PyErr Graph := do
  let versions := addSetVN g.versions version
  let ups ← newVersionScan version g.files g.upgrades
  .ok ⟨ups, g.files, versions⟩

/-- The `for old_version in self.versions` loop of `add_file`:
`old_version > new_file.version` skips (downgrade), then `in_any` gates the
new edge. -/
def addFileScan (newFile : KnownFile) :
    List VersionNumber → List (VersionNumber × List KnownFile) →
    Except PyErr (List (VersionNumber × List KnownFile))
  | [], ups => .ok ups
  | v :: rest, ups => do
    let gtb ← vgtE v newFile.version
    if gtb then addFileScan newFile rest ups
    else do
      let b ← inAnyE v newFile.from_versions
      addFileScan newFile rest (if b then upsertUpgrade ups v newFile else ups)

/-- `SummaryVersionGraph.add_file`. -/
def addFile (g : Graph) (newFile : KnownFile) : Except PyErr Graph := do
  let g ←
    if containsVN g.versions newFile.version then pure g
    else newVersion g newFile.version
  let files := addSetKF g.files newFile
  let ups ← addFileScan newFile g.versions g.upgrades
  .ok ⟨ups, files, g.versions⟩

def emptyGraph : Graph := ⟨[], [], []⟩

/-- `SummaryVersionGraph.__init__`: filter the summary's records to the
active `(app.name, app.platform)` and `add_file` each. -/
def buildGraph (appName platform : String) : List KnownFile → Graph → Except PyErr Graph
  | [], g => .ok g
  | f :: rest, g =>
    if f.app_name = appName ∧ f.platform = platform then do
      let g' ← addFile g f
      buildGraph appName platform rest g'
    else buildGraph appName platform rest g

def mkGraph (appName platform : String) (files : List KnownFile) : Except PyErr Graph :=
  buildGraph appName platform files emptyGraph

/-! ## get_versions (reachability) -/

/-- The `for upgrade_file in self.upgrades[version]` body of `get_versions`:
a produced version still unreachable is removed from `unreachable_versions`
and pushed on `just_reached`. -/
def bfsScan : List KnownFile → List VersionNumber → List VersionNumber →
    List VersionNumber × List VersionNumber
  | [], stack, unr => (stack, unr)
  | f :: rest, stack, unr =>
    if containsVN unr f.version then
      bfsScan rest (f.version :: stack) (removeVN unr f.version)
    else bfsScan rest stack unr

/-- The `while just_reached and unreachable_versions` loop.  `just_reached`
is a LIFO (the source appends and pops at the tail; here the head is the
top, which visits in the same order).  The measure
`|just_reached| + 2 * |unreachable|` drops every iteration, so the fuel
`getVersions` passes always suffices; on exhaustion the current
`unreachable_versions` is returned, which only ever shrinks. -/
def bfsLoop (g : Graph) : Nat → List VersionNumber → List VersionNumber → List VersionNumber
  | 0, _, unr => unr
  | _ + 1, [], unr => unr
  | fuel + 1, v :: stack, unr =>
    if unr = [] then unr
    else
      let r := bfsScan (lookupUpgrades g v) stack unr
      bfsLoop g fuel r.1 r.2

/-- `SummaryVersionGraph.get_versions(source)`.  The source mutates
`self` through `new_version` when the source version is absent; the
embedding returns the reachable set together with the mutated graph. -/
def getVersions (g : Graph) (source : List Char) :
    Except PyErr (List VersionNumber × Graph) := do
  let current := parseVersion source
  let r ←
    if containsVN g.versions current then
      pure (removeVN g.versions current, g)
    else do
      let g' ← newVersion g current
      pure (g.versions, g')
  let unrFinal := bfsLoop r.2 (2 * r.1.length + 2) [current] r.1
  .ok (setDiffVN r.2.versions unrFinal, r.2)

/-! ## get_best_path (Dijkstra with a target exit) -/

/-- One `node_status` record: `[previous, file, cost, finished]`. -/
structure NodeSt where
  prev : Option VersionNumber
  file : Option KnownFile
  cost : Nat
  finished : Bool
deriving DecidableEq

/-- `node_status`, a dict keyed by versions. -/
abbrev StatusMap := List (VersionNumber × NodeSt)

def lookupSt (st : StatusMap) (v : VersionNumber) : Option NodeSt :=
  match st.find? (fun p => eqPy p.1 v) with
  | some p => some p.2
  | none => none

def containsKeySt (st : StatusMap) (v : VersionNumber) : Bool :=
  (st.find? (fun p => eqPy p.1 v)).isSome

/-- Dict assignment `node_status[v] = e` (an update keeps the original key
object). -/
def insertSt : StatusMap → VersionNumber → NodeSt → StatusMap
  | [], v, e => [(v, e)]
  | (k, e0) :: rest, v, e =>
    if eqPy k v then (k, e) :: rest else (k, e0) :: insertSt rest v e

/-- `node_status[v][3] = True`. -/
def setFinishedSt : StatusMap → VersionNumber → StatusMap
  | [], _ => []
  | (k, e) :: rest, v =>
    if eqPy k v then (k, ⟨e.prev, e.file, e.cost, true⟩) :: rest
    else (k, e) :: setFinishedSt rest v

/-- The priority queue: a cost-sorted list of `(cost, node)`. -/
abbrev PQueue := List (Nat × VersionNumber)

/-- Python tuple `<` on two queue items: unequal costs decide; equal costs
fall through to the nodes, first `==` then `__cmp__`'s `<`. -/
def tupleLtE (a b : Nat × VersionNumber) : Except PyErr Bool :=
  if a.1 < b.1 then .ok true
  else if b.1 < a.1 then .ok false
  else if eqPy a.2 b.2 then .ok false
  else vltE a.2 b.2

/-- `bisect.insort(queue, item)`: insert before the first strictly greater
element (the `bisect_right` position).  The linear walk lands at the same
index as the source's binary search; it may evaluate different comparisons,
which matters only for inputs whose comparisons raise, outside the claims'
scope. -/
def insortE (item : Nat × VersionNumber) : PQueue → Except PyErr PQueue
  | [] => .ok [item]
  | x :: rest => do
    let b ← tupleLtE item x
    if b then .ok (item :: x :: rest)
    else do
      let r ← insortE item rest
      .ok (x :: r)

/-- The `for upgrade_file in self.upgrades[node]` relaxation loop of
`get_best_path`.  It reproduces the source exactly, including the slip at
src lines 1011–1013: an already-seen, unfinished node whose cost improves is
re-enqueued and recorded with `cost_so_far` — the predecessor's cumulative
cost — rather than `new_cost`. -/
def relaxEdges (cost : KnownFile → Except PyErr Nat) (targetV node : VersionNumber)
    (costSoFar : Nat) :
    List KnownFile → PQueue → StatusMap → Except PyErr (PQueue × StatusMap)
  | [], q, st => .ok (q, st)
  | f :: rest, q, st => do
    let nextNode := f.version
    let gtb ← vgtE nextNode targetV
    if gtb then relaxEdges cost targetV node costSoFar rest q st
    else do
      let c ← cost f
      let newCost := costSoFar + c
      let r ←
        if containsKeySt st nextNode then pure (q, st)
        else do
          let q' ← insortE (newCost, nextNode) q
          pure (q', insertSt st nextNode ⟨some node, some f, newCost, false⟩)
      match lookupSt r.2 nextNode with
      | none => .error .keyError
      | some e =>
        if !e.finished && decide (e.cost > newCost) then do
          let q' ← insortE (costSoFar, nextNode) r.1
          relaxEdges cost targetV node costSoFar rest q'
            (insertSt r.2 nextNode ⟨some node, some f, costSoFar, false⟩)
        else relaxEdges cost targetV node costSoFar rest r.1 r.2

/-- The `while queue` loop: pop the cheapest entry, skip finished nodes,
finalize, stop at the target, otherwise relax the outgoing edges. -/
def dijkstraLoop (cost : KnownFile → Except PyErr Nat) (g : Graph)
    (targetV : VersionNumber) :
    Nat → PQueue → StatusMap → Except PyErr StatusMap
  | 0, _, _ => .error .outOfFuel
  | _ + 1, [], st => .ok st
  | fuel + 1, (costSoFar, node) :: qrest, st =>
    match lookupSt st node with
    | none => .error .keyError
    | some entry =>
      if entry.finished then dijkstraLoop cost g targetV fuel qrest st
      else
        let st' := setFinishedSt st node
        if eqPy node targetV then .ok st'
        else do
          let r ← relaxEdges cost targetV node costSoFar (lookupUpgrades g node) qrest st'
          dijkstraLoop cost g targetV fuel r.1 r.2

/-- The path re-assembly walk at the end of `get_best_path`.  The source
appends edges target-to-source and reverses once at the end; accumulating
with cons builds the same forward list.  The fuel `|node_status| + 1` covers
every chain of distinct predecessors (predecessors are finalized strictly
earlier, so the chain cannot cycle; a cycle would be source-level
nontermination). -/
def rebuildPath (st : StatusMap) : Nat → VersionNumber → List KnownFile →
    Except PyErr (List KnownFile)
  | 0, _, _ => .error .outOfFuel
  | fuel + 1, cur, acc =>
    match lookupSt st cur with
    | none => .error .keyError
    | some e =>
      match e.file with
      | none => .ok acc
      | some f =>
        match e.prev with
        | none => .error .keyError
        | some p => rebuildPath st fuel p (f :: acc)

/-- `SummaryVersionGraph.get_best_path(source, target)`.  Both arguments go
through `VersionNumber(...)` first; the per-edge cost
`upgrade_file.get_cost(self.app)` is a parameter `cost` (it is `getCostE`
applied to a fixed downloads-directory state — the directory does not change
during a search in the claims' scenarios). -/
def getBestPath (g : Graph) (cost : KnownFile → Except PyErr Nat)
    (source target : List Char) (fuel : Nat) : Except PyErr (List KnownFile) := do
  let s := parseVersion source
  let t := parseVersion target
  let st ← dijkstraLoop cost g t fuel [(0, s)] [(s, ⟨none, none, 0, false⟩)]
  if containsKeySt st t then rebuildPath st (st.length + 1) t []
  else .error .eskyVersionError

/-! ## Observers used by the claims -/

/-- Total download cost of a path: the sum of `get_cost` over its edges. -/
def pathCostE (cost : KnownFile → Except PyErr Nat) : List KnownFile → Except PyErr Nat
  | [] => .ok 0
  | f :: rest => do
    let c ← cost f
    let r ← pathCostE cost rest
    .ok (c + r)

/-- `path` is a source-to-target path of graph `g`: each edge is an outgoing
edge of the node the previous edge produced, and the last produced version
is the target. -/
def isPathB (g : Graph) : VersionNumber → VersionNumber → List KnownFile → Bool
  | v, t, [] => eqPy v t
  | v, t, f :: rest => containsKF (lookupUpgrades g v) f && isPathB g f.version t rest

/-- What a returned path is guaranteed to satisfy (claim C6, amended):
every edge leaves a node matching one of its `from_versions` patterns, and
no edge produces a version strictly greater than the target. -/
def chainCond (tV : VersionNumber) : VersionNumber → List KnownFile → Prop
  | _, [] => True
  | v, f :: rest =>
    inAnyE v f.from_versions = .ok true ∧ vgtE f.version tV = .ok false ∧
    chainCond tV f.version rest

/-- The wiring invariant both `add_file` and `new_version` maintain: every
edge stored under a node matches that node via `in_any`. -/
def graphWFb (g : Graph) : Bool :=
  g.upgrades.all (fun p => p.2.all (fun f => inAnyE p.1 f.from_versions == Except.ok true))

/-! ## Concrete scenario data for the claims -/

/-- A hash oracle that never matches anything the scenarios declare. -/
def hashNone : List Nat → String := fun _ => ""

/-- C1 graph: versions 1 (source), 2, 3, 4 (target); edge costs are the
declared sizes (no local files, so `get_cost` returns the size). -/
def c1FileA : KnownFile := mkKnownFile "ex" "w" "1".toList "*".toList "u/a.zip".toList 100 none
def c1FileAB : KnownFile := mkKnownFile "ex" "w" "2".toList "1".toList "u/ab.esky".toList 1 none
def c1FileAD : KnownFile := mkKnownFile "ex" "w" "3".toList "1".toList "u/ad.esky".toList 2 none
def c1FileAC : KnownFile := mkKnownFile "ex" "w" "4".toList "1".toList "u/ac.esky".toList 10 none
def c1FileBC : KnownFile := mkKnownFile "ex" "w" "4".toList "2".toList "u/bc.esky".toList 3 none
def c1FileDC : KnownFile := mkKnownFile "ex" "w" "4".toList "3".toList "u/dc.esky".toList 1 none
def c1Files : List KnownFile :=
  [c1FileA, c1FileAB, c1FileAD, c1FileAC, c1FileBC, c1FileDC]
def c1Cost : KnownFile → Except PyErr Nat := getCostE hashNone none
def c1Graph : Graph := ((mkGraph "ex" "w" c1Files).toOption).getD emptyGraph

/-- C3 artifact: declared size 4, declared sha256 `"GOOD"`, under an oracle
that hashes the right bytes to `"GOOD"` and everything else to `"BAD"`. -/
def c3Hash : List Nat → String := fun c => if c = [1, 2, 3, 4] then "GOOD" else "BAD"
def c3File : KnownFile :=
  mkKnownFile "ex" "w" "1.1".toList "1.0".toList "http://h/p.esky".toList 4 (some "GOOD")

/-- C5: two summary records sharing the URL basename `p.esky`. -/
def c5FileA : KnownFile :=
  mkKnownFile "ex" "w" "1.1".toList "1.0".toList "http://h/p.esky".toList 4 (some "GOOD")
def c5FileB : KnownFile :=
  mkKnownFile "ex" "w" "1.2".toList "1.1".toList "http://h2/d/p.esky".toList 9 none

/-- C6 counterexample graph: a full install producing 1.0 from `*`, and a
patch producing 2.0 from `0.*`.  `add_file(patch)` calls `new_version(2.0)`,
whose wiring loop has no downgrade filter, so the full install becomes an
outgoing edge of 2.0. -/
def c6Full : KnownFile := mkKnownFile "ex" "w" "1.0".toList "*".toList "u/full10.zip".toList 5 none
def c6Patch : KnownFile := mkKnownFile "ex" "w" "2.0".toList "0.*".toList "u/p.esky".toList 7 none
def c6Graph : Graph := ((mkGraph "ex" "w" [c6Full, c6Patch]).toOption).getD emptyGraph

/-- C6 witness graph: full install 1.0 from `*`, patch 2.0 from `1.*`. -/
def c6wFull : KnownFile := mkKnownFile "ex" "w" "1.0".toList "*".toList "u/f.zip".toList 5 none
def c6wPatch : KnownFile := mkKnownFile "ex" "w" "2.0".toList "1.*".toList "u/q.esky".toList 3 none
def c6wGraph : Graph := ((mkGraph "ex" "w" [c6wFull, c6wPatch]).toOption).getD emptyGraph

/-- C10 record: declared size 2 with a declared hash. -/
def c10Hash : List Nat → String := fun _ => "d"
def c10File : KnownFile :=
  mkKnownFile "ex" "w" "1.0".toList "0.9".toList "http://h/t.esky".toList 2 (some "d")

/-- What a `node_status` entry carrying an edge guarantees: the edge hangs
off the recorded predecessor's outgoing set, produces (an `==`-equal copy
of) the entry's key, and was not pruned, i.e. does not exceed the target. -/
def StPredFile (g : Graph) (tV : VersionNumber) (k : VersionNumber) (e : NodeSt) : Prop :=
  ∀ f, e.file = some f →
    (∃ p, e.prev = some p ∧ f ∈ lookupUpgrades g p) ∧ eqPy k f.version = true ∧
      vgtE f.version tV = .ok false

/-- The only edge-less `node_status` entry is the source's seed entry. -/
def StPredNone (sV : VersionNumber) (k : VersionNumber) (e : NodeSt) : Prop :=
  e.file = none → k = sV ∧ e.prev = none

/-- The loop invariant of `get_best_path` over `node_status`. -/
def StInv (g : Graph) (tV sV : VersionNumber) (st : StatusMap) : Prop :=
  ∀ k e, (k, e) ∈ st → StPredFile g tV k e ∧ StPredNone sV k e

/-- The qualifiers whose canonical rendering survives a re-parse.  A named
qualifier with number 0 whose name is exactly `final` renders as `_final`
(re-parsed as no qualifier at all), and one whose name ends in `*` renders
with a trailing `*` (re-parsed as a wildcard); every other non-wildcard
qualifier round-trips (claim C9, amended). -/
def QualRoundtrips : Qualifier → Prop
  | .qnamed _ 0 nm => ¬(nm = "final".toList) ∧ ¬(nm.getLast? = some '*')
  | _ => True

/-! ## Theorems -/

/-- C1: the claim states that `get_best_path` returns a minimum-cost path,
re-enqueueing an improved node with `new_cost = cost_so_far + edge cost`.
The code instead re-enqueues and records `cost_so_far` (src lines
1011–1013), and the search is not optimal: on the concrete graph below the
returned path `1 → 2 → 4` costs 4 while the graph also contains the path
`1 → 3 → 4` of cost 3. -/
theorem c1_relaxation_bug_evidence :
    mkGraph "ex" "w" c1Files = .ok c1Graph ∧
    getBestPath c1Graph c1Cost "1".toList "4".toList 50 = .ok [c1FileAB, c1FileBC] ∧
    pathCostE c1Cost [c1FileAB, c1FileBC] = .ok 4 ∧
    isPathB c1Graph (parseVersion "1".toList) (parseVersion "4".toList)
      [c1FileAD, c1FileDC] = true ∧
    pathCostE c1Cost [c1FileAD, c1FileDC] = .ok 3 := by decide

/-- C3: the claim states that after a complete download with a mismatching
hash the file is deleted, one attempt is consumed, and a second attempt
re-downloads from offset 0 and succeeds.  In the code, the hash-failure
branch does not reassign `seek_to`, so the following stall check compares
the stale `seek_to` with `resumed_from` (both 0), consumes the second
attempt too, and calls `os.unlink` on the just-deleted file: `fetch` dies
with an `OSError` and never issues the second request.  The second conjunct
shows the same call succeeds when the first response already carries the
right bytes, so the failure is specific to the retry path. -/
theorem c3_fetch_retry_evidence :
    fetch c3Hash c3File 8 none [([9, 9, 9, 9], true), ([1, 2, 3, 4], true)] =
      .error .osError ∧
    fetch c3Hash c3File 8 none [([1, 2, 3, 4], true)] = .ok (some [1, 2, 3, 4], []) ∧
    c3File.size = 4 ∧ c3File.hash = some "GOOD" ∧
    c3Hash [1, 2, 3, 4] = "GOOD" ∧ c3Hash [9, 9, 9, 9] = "BAD" := by decide

/-- C4: the claim states that ordering two equal-parts versions fails with
an error when either qualifier's name is unknown (order −1).  In the code
`parse_qualifier` defaults the order to the *string* `"-1"`, the guard
`my_order == -1` in `__cmp__` never fires, and the comparison silently
returns an ordering: two unknown qualifiers compare equal by number, and an
unknown qualifier compares greater than a known one (CPython 2 orders any
int below any str). -/
theorem c4_unknown_qualifier_silent_order :
    (parseVersion "1_foo".toList).qualifier =
      .qnamed (.ostr "-1".toList) 0 "foo".toList ∧
    vcmp (parseVersion "1_foo".toList) (parseVersion "1_bar".toList) = .ok .eq ∧
    vltE (parseVersion "1_foo".toList) (parseVersion "1_bar".toList) = .ok false ∧
    vcmp (parseVersion "1_foo".toList) (parseVersion "1_pre".toList) = .ok .gt ∧
    vcmp (parseVersion "1_pre".toList) (parseVersion "1_foo".toList) = .ok .lt := by
  decide

/-- C5: the claim states that with several records sharing a basename,
`identify_file` hashes the local file once and returns the record whose
`check_hash` passes (or the most recent).  The code's multi-match branch
calls `hash_file(full_filename)`, one argument short of
`def hash_file(full_filename, size)`, so it raises `TypeError` before
checking any candidate; only the zero- and one-match branches return. -/
theorem c5_identify_file_arity_evidence :
    getFilename c5FileA = "p.esky".toList ∧
    getFilename c5FileB = "p.esky".toList ∧
    c5FileA ≠ c5FileB ∧
    identifyFile [c5FileA, c5FileB] "p.esky".toList =
      .error (.typeError "hash_file() takes exactly 2 arguments (1 given)") ∧
    identifyFile [c5FileA] "p.esky".toList = .ok (some c5FileA) ∧
    identifyFile [c5FileB] "x.esky".toList = .ok none := by decide

/-- C10: `check_hash` is not read-only.  When the record declares a hash and
a nonzero size, the file exists, and no precomputed hash is supplied, the
local file is truncated (or zero-extended) on disk to the declared size
before hashing; in particular a longer file is permanently modified. -/
theorem c10_check_hash_truncates (hashFn : List Nat → String) (f : KnownFile)
    (content : List Nat) (declared : String)
    (hhash : f.hash = some declared) (hsize : f.size ≠ 0) :
    (checkHash hashFn f (some content) none none).2 =
      some (truncExtend content f.size) ∧
    (truncExtend content f.size).length = f.size ∧
    (f.size < content.length → truncExtend content f.size ≠ content) := by
  refine ⟨?_, ?_, ?_⟩
  · simp only [checkHash, hhash, hashFileM, if_neg hsize, Option.getD]
  · unfold truncExtend
    by_cases h : f.size ≤ content.length
    · simp [h]
    · simp [h]
      omega
  · intro hlt heq
    have : (truncExtend content f.size).length = f.size := by
      unfold truncExtend
      by_cases h : f.size ≤ content.length
      · simp [h]
      · simp [h]
        omega
    rw [heq] at this
    omega

/-- A concrete run of C10's theorem: declared size 2, a 3-byte local file,
file truncated to its first 2 bytes. -/
theorem c10_check_hash_truncates_witness :
    (checkHash c10Hash c10File (some [5, 6, 7]) none none).2 =
      some (truncExtend [5, 6, 7] 2) ∧
    (truncExtend [5, 6, 7] 2).length = 2 ∧
    (2 < 3 → truncExtend [5, 6, 7] 2 ≠ [5, 6, 7]) :=
  c10_check_hash_truncates c10Hash c10File [5, 6, 7] "d" rfl (by decide)

/-- The `wildcard_match` loop once the candidate is exhausted: the
fall-through `elif yours != mine` fires on the `None` fill (Python 2's
`None != 0` is `True`), so the loop returns `False` whatever the remaining
wildcard components are. -/
theorem wcLoop_nil_right (sq : Bool) (m : Int) (ms : List Int) :
    wcLoop sq (m :: ms) [] = some false := rfl

/-- The `wildcard_match` loop whenever the candidate's parts are a strict
matching prefix of the wildcard's: it returns `False` — even when every
remaining wildcard component is zero. -/
theorem wcLoop_runoff (sq : Bool) :
    ∀ (vp wp : List Int), vp.length < wp.length → wp.take vp.length = vp →
      wcLoop sq wp vp = some false
  | [], [] => fun hlen _ => by simp at hlen
  | [], m :: ms => fun _ _ => rfl
  | y :: vrest, [] => fun hlen _ => by simp at hlen
  | y :: vrest, m :: wrest => fun hlen hpre => by
    simp only [List.length_cons] at hlen
    simp only [List.length_cons, List.take_succ_cons, List.cons.injEq] at hpre
    obtain ⟨rfl, hpre'⟩ := hpre
    have ih := wcLoop_runoff sq vrest wrest (by omega) hpre'
    simp [wcLoop, ih]

/-- C2: the claim (like the source's own comment at line 348 and the spec)
says a candidate that runs out of parts matches iff every remaining
wildcard component is exactly zero, so `"1.0" in VersionNumber("1.0.0.*")`
is `True`.  The code disagrees: with the candidate exhausted,
`izip_longest` fills `yours = None`, the `yours == None and mine != 0`
branch skips a zero component, but the fall-through `elif yours != mine`
then compares `None != 0` — `True` in Python 2 — and returns `False`.  Both
of the claim's instances are therefore `False`, and the zero rule's dead
branch is visible on the loop itself. -/
theorem c2_candidate_runoff_bug_evidence :
    containsE (parseVersion "1.0.0.*".toList) (parseVersion "1.0".toList) = .ok false ∧
    containsE (parseVersion "1.0.1.*".toList) (parseVersion "1.0".toList) = .ok false ∧
    wcLoop false (parseVersion "1.0.0.*".toList).parts
      (parseVersion "1.0".toList).parts = some false := by decide

/-- `Except.ok a >>= f` computes to `f a` (the `Except` monad's bind on a
success). -/
theorem exceptOkBind {α β ε : Type} (a : α) (f : α → Except ε β) :
    (Except.ok a >>= f : Except ε β) = f a := rfl

/-- `==` is reflexive on valid versions. -/
theorem eqPy_refl (v : VersionNumber) (h : v.invalid = false) : eqPy v v = true := by
  simp [eqPy, h]

/-- C8: for every graph (whether or not the version is one of its nodes)
and any cost oracle, `get_best_path(v, v)` returns the empty path for a
valid version `v`, without raising the no-path error.  The first queue pop
finalizes the source, which already equals the target, and the predecessor
walk stops immediately. -/
theorem c8_self_path_empty (g : Graph) (cost : KnownFile → Except PyErr Nat)
    (s : List Char) (fuel : Nat)
    (hv : (parseVersion s).invalid = false) (hf : 1 ≤ fuel) :
    getBestPath g cost s s fuel = .ok [] := by
  obtain ⟨n, rfl⟩ : ∃ n, fuel = n + 1 := ⟨fuel - 1, by omega⟩
  have he := eqPy_refl (parseVersion s) hv
  simp [getBestPath, dijkstraLoop, lookupSt, containsKeySt, setFinishedSt,
    rebuildPath, List.find?, he, exceptOkBind]

/-- C8 at a concrete input: the version `9.9` is not a node of the
one-node graph built from C6's witness files, yet the self-path is `[]`. -/
theorem c8_self_path_empty_witness :
    getBestPath c6wGraph c1Cost "9.9".toList "9.9".toList 1 = .ok [] :=
  c8_self_path_empty c6wGraph c1Cost "9.9".toList 1 (by decide) (by decide)

/-- `pure a >>= f` in the `Except` monad computes to `f a`. -/
theorem exceptPureBind {α β ε : Type} (a : α) (f : α → Except ε β) :
    (pure a >>= f : Except ε β) = f a := rfl

/-- A true `==` exposes the fields: both operands valid and the observable
triple identical. -/
theorem eqPy_fields (a b : VersionNumber) (h : eqPy a b = true) :
    a.invalid = false ∧ b.invalid = false ∧ a.qualifier = b.qualifier ∧
      a.parts = b.parts ∧ a.wildcard = b.wildcard := by
  simp only [eqPy, Bool.and_eq_true, Bool.not_eq_true', beq_iff_eq] at h
  tauto

theorem eqPy_symm (a b : VersionNumber) (h : eqPy a b = true) : eqPy b a = true := by
  obtain ⟨h1, h2, h3, h4, h5⟩ := eqPy_fields a b h
  simp [eqPy, h1, h2, h3, h4, h5]

/-- `==`-equal versions are interchangeable on either side of `==`. -/
theorem eqPy_congr (a b : VersionNumber) (h : eqPy a b = true) (c : VersionNumber) :
    eqPy c a = eqPy c b := by
  obtain ⟨h1, h2, h3, h4, h5⟩ := eqPy_fields a b h
  simp [eqPy, h1, h2, h3, h4, h5]

theorem eqPy_trans (a b c : VersionNumber) (hab : eqPy a b = true)
    (hbc : eqPy b c = true) : eqPy a c = true := by
  rw [← eqPy_congr b c hbc a]
  exact hab

theorem containsVN_congr (a b : VersionNumber) (h : eqPy a b = true) :
    ∀ l : List VersionNumber, containsVN l a = containsVN l b := by
  intro l
  induction l with
  | nil => rfl
  | cons x rest ih =>
    simp only [containsVN, List.any_cons] at ih ⊢
    rw [eqPy_congr a b h x, ih]

/-- Removing `v` from a duplicate-free set leaves no `==`-equal element. -/
theorem containsVN_removeVN_self (v : VersionNumber) :
    ∀ l : List VersionNumber, l.Pairwise (fun a b => eqPy a b = false) →
      containsVN (removeVN l v) v = false := by
  intro l
  induction l with
  | nil => intro _; rfl
  | cons x rest ih =>
    intro hp
    rw [List.pairwise_cons] at hp
    by_cases hx : eqPy x v = true
    · simp only [removeVN, hx, if_true]
      by_contra hcon
      rw [Bool.not_eq_false, containsVN, List.any_eq_true] at hcon
      obtain ⟨y, hy, hyv⟩ := hcon
      have : eqPy x y = true := eqPy_trans x v y hx (eqPy_symm y v hyv)
      rw [hp.1 y hy] at this
      exact Bool.false_ne_true this
    · rw [Bool.not_eq_true] at hx
      simp only [removeVN, hx, Bool.false_eq_true, if_false, containsVN, List.any_cons, hx,
        Bool.false_or]
      exact ih hp.2

/-- Removal never adds membership. -/
theorem containsVN_removeVN_mono (v x : VersionNumber) :
    ∀ l : List VersionNumber, containsVN l x = false →
      containsVN (removeVN l v) x = false := by
  intro l
  induction l with
  | nil => intro _; rfl
  | cons y rest ih =>
    intro h
    simp only [containsVN, List.any_cons, Bool.or_eq_false_iff] at h
    by_cases hy : eqPy y v = true
    · simp only [removeVN, hy, if_true, containsVN]
      exact h.2
    · rw [Bool.not_eq_true] at hy
      simp only [removeVN, hy, Bool.false_eq_true, if_false, containsVN, List.any_cons,
        h.1, Bool.false_or]
      exact ih h.2

/-- The inner reachability scan only ever removes from
`unreachable_versions`. -/
theorem bfsScan_not_contains (x : VersionNumber) :
    ∀ (edges : List KnownFile) (stack unr : List VersionNumber),
      containsVN unr x = false → containsVN (bfsScan edges stack unr).2 x = false := by
  intro edges
  induction edges with
  | nil => intro _ _ h; exact h
  | cons f rest ih =>
    intro stack unr h
    by_cases hc : containsVN unr f.version = true
    · simp only [bfsScan, hc, if_true]
      exact ih _ _ (containsVN_removeVN_mono f.version x unr h)
    · rw [Bool.not_eq_true] at hc
      simp only [bfsScan, hc, Bool.false_eq_true, if_false]
      exact ih _ _ h

/-- The reachability loop only ever removes from `unreachable_versions`. -/
theorem bfsLoop_not_contains (g : Graph) (x : VersionNumber) :
    ∀ (fuel : Nat) (stack unr : List VersionNumber),
      containsVN unr x = false → containsVN (bfsLoop g fuel stack unr) x = false := by
  intro fuel
  induction fuel with
  | zero => intro _ _ h; exact h
  | succ n ih =>
    intro stack unr h
    match stack with
    | [] => exact h
    | v :: rest =>
      by_cases hu : unr = []
      · simp only [bfsLoop, hu, if_true]
        rw [hu] at h; exact h
      · simp only [bfsLoop, if_neg hu]
        exact ih _ _ (bfsScan_not_contains x (lookupUpgrades g v) rest unr h)

/-- Membership survives a set difference that cannot touch it. -/
theorem setDiffVN_contains (l r : List VersionNumber) (v : VersionNumber)
    (hl : containsVN l v = true) (hr : containsVN r v = false) :
    containsVN (setDiffVN l r) v = true := by
  rw [containsVN, List.any_eq_true] at hl
  obtain ⟨y, hy, hyv⟩ := hl
  have hry : containsVN r y = false := by
    rw [containsVN_congr y v hyv r]; exact hr
  rw [containsVN, List.any_eq_true]
  refine ⟨y, ?_, hyv⟩
  unfold setDiffVN
  rw [List.mem_filter]
  exact ⟨hy, by rw [hry]; rfl⟩

/-- `wildcard_match` returns (rather than raising) whenever both operands
are valid and the candidate's qualifier is not the bool `True`. -/
theorem wildcardMatchE_ok (p c : VersionNumber) (hp : p.invalid = false)
    (hc : c.invalid = false) (hq : c.qualifier ≠ .qany) :
    ∃ b, wildcardMatchE p c = .ok b := by
  unfold wildcardMatchE
  simp only [hc, hp, Bool.false_eq_true, if_false]
  by_cases h1 : p.wildcard = false
  · exact ⟨false, by rw [if_pos h1]⟩
  rw [if_neg h1]
  by_cases h2 : p.parts = []
  · exact ⟨true, by rw [if_pos h2]⟩
  rw [if_neg h2]
  by_cases h3 : c.parts = []
  · exact ⟨false, by rw [if_pos h3]⟩
  rw [if_neg h3]
  by_cases h4 : qualTruthy c.qualifier ≠ qualTruthy p.qualifier
  · exact ⟨false, by rw [if_pos h4]⟩
  rw [if_neg h4]
  push_neg at h4
  match hw : wcLoop (qualTruthy p.qualifier) p.parts c.parts with
  | some b => exact ⟨b, rfl⟩
  | none =>
    match hpq : p.qualifier with
    | .qnone => exact ⟨true, rfl⟩
    | .qany => exact ⟨true, rfl⟩
    | .qnamed _ _ nm =>
      match hcq : c.qualifier with
      | .qnamed _ _ onm => exact ⟨nm == onm, rfl⟩
      | .qany => exact absurd hcq hq
      | .qnone =>
        rw [hpq, hcq] at h4
        simp [qualTruthy] at h4

/-- `__contains__` returns whenever the operands are valid (and the
candidate's qualifier is not the bool `True`). -/
theorem containsE_ok (p c : VersionNumber) (hp : p.invalid = false)
    (hc : c.invalid = false) (hq : c.qualifier ≠ .qany) :
    ∃ b, containsE p c = .ok b := by
  unfold containsE
  by_cases h : p.wildcard = true
  · rw [if_pos h]
    exact wildcardMatchE_ok p c hp hc hq
  · rw [if_neg h]
    exact ⟨eqPy p c, rfl⟩

/-- `in_any` returns whenever candidate and patterns are valid. -/
theorem inAnyE_ok (c : VersionNumber) (hc : c.invalid = false)
    (hq : c.qualifier ≠ .qany) :
    ∀ pats : List VersionNumber, (∀ p ∈ pats, p.invalid = false) →
      ∃ b, inAnyE c pats = .ok b := by
  intro pats
  induction pats with
  | nil => intro _; exact ⟨false, rfl⟩
  | cons p rest ih =>
    intro hps
    obtain ⟨b, hb⟩ := containsE_ok p c (hps p (List.mem_cons_self p rest)) hc hq
    obtain ⟨b', hb'⟩ := ih (fun q hqm => hps q (List.mem_cons_of_mem p hqm))
    match b with
    | true => exact ⟨true, by rw [inAnyE, hb, exceptOkBind, if_pos rfl]⟩
    | false => exact ⟨b', by rw [inAnyE, hb, exceptOkBind, if_neg (by simp), hb']⟩

/-- The `new_version` wiring loop returns whenever all patterns are valid. -/
theorem newVersionScan_ok (version : VersionNumber) (hv : version.invalid = false)
    (hq : version.qualifier ≠ .qany) :
    ∀ (files : List KnownFile) (ups : List (VersionNumber × List KnownFile)),
      (∀ f ∈ files, ∀ p ∈ f.from_versions, p.invalid = false) →
      ∃ u, newVersionScan version files ups = .ok u := by
  intro files
  induction files with
  | nil => intro ups _; exact ⟨ups, rfl⟩
  | cons f rest ih =>
    intro ups hps
    obtain ⟨b, hb⟩ := inAnyE_ok version hv hq f.from_versions
      (hps f (List.mem_cons_self f rest))
    obtain ⟨u, hu⟩ := ih (if b then upsertUpgrade ups version f else ups)
      (fun q hqm => hps q (List.mem_cons_of_mem f hqm))
    exact ⟨u, by rw [newVersionScan, hb, exceptOkBind, hu]⟩

/-- C7: `get_versions(v)` returns a set containing `v` itself, whether or
not `v` is a node of the graph (when absent, `new_version` inserts it before
the search).  Hypotheses: `v` parses to a valid version that is not a bare
wildcard-qualifier; the graph's patterns are valid (as any graph built from
parsed summary rows is); and the node set is duplicate-free (as a Python set
is by construction). -/
theorem c7_get_versions_contains_source (g : Graph) (s : List Char)
    (hv : (parseVersion s).invalid = false)
    (hq : (parseVersion s).qualifier ≠ .qany)
    (hps : ∀ f ∈ g.files, ∀ p ∈ f.from_versions, p.invalid = false)
    (hnd : g.versions.Pairwise (fun a b => eqPy a b = false)) :
    ∃ res g', getVersions g s = .ok (res, g') ∧
      containsVN res (parseVersion s) = true := by
  by_cases hc : containsVN g.versions (parseVersion s) = true
  · have hrun : getVersions g s = .ok
        (setDiffVN g.versions
          (bfsLoop g (2 * (removeVN g.versions (parseVersion s)).length + 2)
            [parseVersion s] (removeVN g.versions (parseVersion s))), g) := by
      unfold getVersions
      rw [if_pos hc, exceptPureBind]
    refine ⟨_, _, hrun, ?_⟩
    apply setDiffVN_contains _ _ _ hc
    apply bfsLoop_not_contains
    exact containsVN_removeVN_self (parseVersion s) g.versions hnd
  · rw [Bool.not_eq_true] at hc
    obtain ⟨u, hu⟩ := newVersionScan_ok (parseVersion s) hv hq g.files g.upgrades hps
    have hnv : newVersion g (parseVersion s) =
        .ok ⟨u, g.files, addSetVN g.versions (parseVersion s)⟩ := by
      unfold newVersion
      rw [hu, exceptOkBind]
    have hrun : getVersions g s = .ok
        (setDiffVN (addSetVN g.versions (parseVersion s))
          (bfsLoop ⟨u, g.files, addSetVN g.versions (parseVersion s)⟩
            (2 * g.versions.length + 2) [parseVersion s] g.versions), 
          (⟨u, g.files, addSetVN g.versions (parseVersion s)⟩ : Graph)) := by
      unfold getVersions
      rw [if_neg (by rw [hc]; exact Bool.false_ne_true), hnv, exceptOkBind, exceptPureBind]
    refine ⟨_, _, hrun, ?_⟩
    apply setDiffVN_contains
    · show containsVN (addSetVN g.versions (parseVersion s)) (parseVersion s) = true
      rw [addSetVN, if_neg (by rw [hc]; exact Bool.false_ne_true), containsVN,
        List.any_append]
      simp [containsVN, eqPy_refl (parseVersion s) hv]
    · exact bfsLoop_not_contains _ _ _ _ _ hc

/-- C7 at a concrete input: from `0.7`, which is not a node of the witness
graph, the reachable set contains `0.7`. -/
theorem c7_get_versions_contains_source_witness :
    ∃ res g', getVersions c6wGraph "0.7".toList = .ok (res, g') ∧
      containsVN res (parseVersion "0.7".toList) = true :=
  c7_get_versions_contains_source c6wGraph "0.7".toList (by decide) (by decide)
    (by decide) (by decide)

/-- A comparison that returns went past the validity guards. -/
theorem vcmp_ok_valid (a b : VersionNumber) (o : Ordering) (h : vcmp a b = .ok o) :
    a.invalid = false ∧ b.invalid = false := by
  unfold vcmp at h
  by_cases hb : b.invalid = true
  · rw [if_pos hb] at h; cases h
  · rw [if_neg hb] at h
    by_cases ha : a.invalid = true
    · rw [if_pos ha] at h; cases h
    · exact ⟨Bool.not_eq_true _ |>.mp ha, Bool.not_eq_true _ |>.mp hb⟩

/-- `a > b` returning a verdict means both operands are valid. -/
theorem vgtE_ok_valid (a b : VersionNumber) (x : Bool) (h : vgtE a b = .ok x) :
    a.invalid = false ∧ b.invalid = false := by
  unfold vgtE at h
  cases hc : vcmp a b with
  | error e => rw [hc] at h; cases h
  | ok o => exact vcmp_ok_valid a b o hc

/-- `wildcard_match` only looks at the candidate through its observable
fields, so `==`-equal candidates are interchangeable. -/
theorem wildcardMatchE_congr (p a b : VersionNumber) (h : eqPy a b = true) :
    wildcardMatchE p a = wildcardMatchE p b := by
  obtain ⟨h1, h2, h3, h4, _⟩ := eqPy_fields a b h
  unfold wildcardMatchE
  rw [h1, h2, h3, h4]

theorem containsE_congr (p a b : VersionNumber) (h : eqPy a b = true) :
    containsE p a = containsE p b := by
  unfold containsE
  rw [wildcardMatchE_congr p a b h, eqPy_congr a b h p]

theorem inAnyE_congr (a b : VersionNumber) (h : eqPy a b = true) :
    ∀ pats : List VersionNumber, inAnyE a pats = inAnyE b pats := by
  intro pats
  induction pats with
  | nil => rfl
  | cons p rest ih => rw [inAnyE, inAnyE, containsE_congr p a b h, ih]

/-- A successful `find?`-based status lookup exposes the stored pair. -/
theorem lookupSt_some (st : StatusMap) (v : VersionNumber) (e : NodeSt)
    (h : lookupSt st v = some e) : ∃ k, eqPy k v = true ∧ (k, e) ∈ st := by
  unfold lookupSt at h
  cases hf : st.find? (fun p => eqPy p.1 v) with
  | none => rw [hf] at h; cases h
  | some pr =>
    rw [hf] at h
    cases h
    refine ⟨pr.1, ?_, by simpa using List.mem_of_find?_eq_some hf⟩
    have := List.find?_some hf
    simpa using this

/-- Membership after a dict update: either an untouched pair, or the new
entry stored under the updated key (the original, `==`-equal key object). -/
theorem insertSt_mem (v : VersionNumber) (e : NodeSt) (k' : VersionNumber) (e' : NodeSt) :
    ∀ st : StatusMap, (k', e') ∈ insertSt st v e →
      (k', e') ∈ st ∨ (e' = e ∧ (k' = v ∨ eqPy k' v = true)) := by
  intro st
  induction st with
  | nil =>
    intro h
    simp only [insertSt, List.mem_singleton, Prod.mk.injEq] at h
    exact Or.inr ⟨h.2, Or.inl h.1⟩
  | cons pr rest ih =>
    intro h
    by_cases hk : eqPy pr.1 v = true
    · rw [show pr = (pr.1, pr.2) from rfl, insertSt, if_pos hk] at h
      rcases List.mem_cons.mp h with h | h
      · cases h
        exact Or.inr ⟨rfl, Or.inr hk⟩
      · exact Or.inl (List.mem_cons_of_mem _ h)
    · rw [show pr = (pr.1, pr.2) from rfl, insertSt, if_neg hk] at h
      rcases List.mem_cons.mp h with h | h
      · exact Or.inl (by rw [h]; exact List.mem_cons_self _ _)
      · rcases ih h with h | h
        · exact Or.inl (List.mem_cons_of_mem _ h)
        · exact Or.inr h

/-- Marking a node finished changes no entry's predecessor or edge. -/
theorem setFinishedSt_mem (v : VersionNumber) (k' : VersionNumber) (e' : NodeSt) :
    ∀ st : StatusMap, (k', e') ∈ setFinishedSt st v →
      ∃ e0, (k', e0) ∈ st ∧ e'.prev = e0.prev ∧ e'.file = e0.file := by
  intro st
  induction st with
  | nil => intro h; cases h
  | cons pr rest ih =>
    intro h
    by_cases hk : eqPy pr.1 v = true
    · rw [show pr = (pr.1, pr.2) from rfl, setFinishedSt, if_pos hk] at h
      rcases List.mem_cons.mp h with h | h
      · cases h
        exact ⟨pr.2, List.mem_cons_self _ _, rfl, rfl⟩
      · exact ⟨e', List.mem_cons_of_mem _ h, rfl, rfl⟩
    · rw [show pr = (pr.1, pr.2) from rfl, setFinishedSt, if_neg hk] at h
      rcases List.mem_cons.mp h with h | h
      · exact ⟨e', by rw [h]; exact List.mem_cons_self _ _, rfl, rfl⟩
      · obtain ⟨e0, he0, hp, hf⟩ := ih h
        exact ⟨e0, List.mem_cons_of_mem _ he0, hp, hf⟩

/-- Every edge stored in a well-wired graph matches its node's patterns
(through the stored, `==`-equal key). -/
theorem graphWFb_lookup (g : Graph) (hwf : graphWFb g = true) (v : VersionNumber)
    (f : KnownFile) (hf : f ∈ lookupUpgrades g v) :
    ∃ k, eqPy k v = true ∧ inAnyE k f.from_versions = .ok true := by
  unfold lookupUpgrades at hf
  cases hfind : g.upgrades.find? (fun p => eqPy p.1 v) with
  | none => rw [hfind] at hf; cases hf
  | some pr =>
    rw [hfind] at hf
    have hmem := List.mem_of_find?_eq_some hfind
    have hpred : eqPy pr.1 v = true := by
      have := List.find?_some hfind
      simpa using this
    unfold graphWFb at hwf
    rw [List.all_eq_true] at hwf
    have h1 := hwf pr hmem
    rw [List.all_eq_true] at h1
    have h2 := h1 f hf
    rw [beq_iff_eq] at h2
    exact ⟨pr.1, hpred, h2⟩

/-- `Except.error e >>= f` stays the error. -/
theorem exceptErrorBind {α β ε : Type} (e : ε) (f : α → Except ε β) :
    (Except.error e >>= f : Except ε β) = Except.error e := rfl

/-- Inserting an entry that satisfies the invariant's edge predicate keeps
the invariant (the updated key is `==`-equal to the inserted one). -/
theorem StInv_insert (g : Graph) (tV sV : VersionNumber) (st : StatusMap)
    (hinv : StInv g tV sV st) (v : VersionNumber) (e : NodeSt)
    (hpred : ∀ f, e.file = some f →
      (∃ p, e.prev = some p ∧ f ∈ lookupUpgrades g p) ∧ eqPy v f.version = true ∧
        vgtE f.version tV = .ok false)
    (hsome : e.file ≠ none) :
    StInv g tV sV (insertSt st v e) := by
  intro k' e' hmem
  rcases insertSt_mem v e k' e' st hmem with h | ⟨rfl, hk⟩
  · exact hinv k' e' h
  · constructor
    · intro f hf
      obtain ⟨h1, h2, h3⟩ := hpred f hf
      refine ⟨h1, ?_, h3⟩
      rcases hk with rfl | hk
      · exact h2
      · exact eqPy_trans k' v f.version hk h2
    · intro hnone
      exact absurd hnone hsome

/-- Finalizing a node keeps the invariant. -/
theorem StInv_setFinished (g : Graph) (tV sV : VersionNumber) (st : StatusMap)
    (hinv : StInv g tV sV st) (v : VersionNumber) :
    StInv g tV sV (setFinishedSt st v) := by
  intro k' e' hmem
  obtain ⟨e0, he0, hp, hf⟩ := setFinishedSt_mem v k' e' st hmem
  obtain ⟨h1, h2⟩ := hinv k' e0 he0
  constructor
  · intro f hfe
    rw [hf] at hfe
    obtain ⟨⟨p, hp0, hlk⟩, hk, hgt⟩ := h1 f hfe
    exact ⟨⟨p, by rw [hp, hp0], hlk⟩, hk, hgt⟩
  · intro hnone
    rw [hf] at hnone
    obtain ⟨ha, hb⟩ := h2 hnone
    exact ⟨ha, by rw [hp, hb]⟩

/-- The relaxation loop keeps the invariant: both its status writes record
the processed node as predecessor, an outgoing edge of that node, the edge's
produced version as (an `==`-equal copy of) the key, and only survive the
`next_node > target` pruning. -/
theorem StInv_relax (g : Graph) (tV sV : VersionNumber)
    (cost : KnownFile → Except PyErr Nat) (node : VersionNumber) (csf : Nat) :
    ∀ (edges : List KnownFile) (q : PQueue) (st : StatusMap) (r : PQueue × StatusMap),
      (∀ f ∈ edges, f ∈ lookupUpgrades g node) →
      StInv g tV sV st →
      relaxEdges cost tV node csf edges q st = .ok r →
      StInv g tV sV r.2 := by
  intro edges
  induction edges with
  | nil =>
    intro q st r _ hinv hrun
    simp only [relaxEdges] at hrun
    cases hrun
    exact hinv
  | cons f rest ih =>
    intro q st r hedges hinv hrun
    have hfmem : f ∈ lookupUpgrades g node := hedges f (List.mem_cons_self f rest)
    have hrestmem : ∀ x ∈ rest, x ∈ lookupUpgrades g node :=
      fun x hx => hedges x (List.mem_cons_of_mem f hx)
    simp only [relaxEdges] at hrun
    cases hgt : vgtE f.version tV with
    | error e =>
      simp only [hgt, exceptErrorBind] at hrun
      cases hrun
    | ok gtb =>
      simp only [hgt, exceptOkBind] at hrun
      cases gtb with
      | true =>
        rw [if_pos rfl] at hrun
        exact ih q st r hrestmem hinv hrun
      | false =>
        rw [if_neg Bool.false_ne_true] at hrun
        have hvalid : f.version.invalid = false := (vgtE_ok_valid f.version tV false hgt).1
        have hrefl := eqPy_refl f.version hvalid
        cases hcost : cost f with
        | error e =>
          simp only [hcost, exceptErrorBind] at hrun
          cases hrun
        | ok c =>
          simp only [hcost, exceptOkBind] at hrun
          by_cases hck : containsKeySt st f.version = true
          · rw [if_pos hck] at hrun
            simp only [exceptPureBind] at hrun
            cases hlk : lookupSt st f.version with
            | none => simp only [hlk] at hrun; cases hrun
            | some e0 =>
              simp only [hlk] at hrun
              by_cases himp : (!e0.finished && decide (e0.cost > csf + c)) = true
              · rw [if_pos himp] at hrun
                cases hins : insortE (csf, f.version) q with
                | error e1 =>
                  simp only [hins, exceptErrorBind] at hrun
                  cases hrun
                | ok q2 =>
                  simp only [hins, exceptOkBind] at hrun
                  refine ih _ _ r hrestmem ?_ hrun
                  exact StInv_insert g tV sV st hinv f.version
                    ⟨some node, some f, csf, false⟩
                    (fun f' hf' => by
                      cases hf'
                      exact ⟨⟨node, rfl, hfmem⟩, hrefl, hgt⟩)
                    (by simp)
              · rw [if_neg himp] at hrun
                exact ih _ _ r hrestmem hinv hrun
          · rw [if_neg hck] at hrun
            cases hins : insortE (csf + c, f.version) q with
            | error e1 =>
              simp only [hins, exceptErrorBind] at hrun
              cases hrun
            | ok q1 =>
              simp only [hins, exceptOkBind, exceptPureBind] at hrun
              have hinv1 : StInv g tV sV
                  (insertSt st f.version ⟨some node, some f, csf + c, false⟩) :=
                StInv_insert g tV sV st hinv f.version
                  ⟨some node, some f, csf + c, false⟩
                  (fun f' hf' => by
                    cases hf'
                    exact ⟨⟨node, rfl, hfmem⟩, hrefl, hgt⟩)
                  (by simp)
              cases hlk : lookupSt
                  (insertSt st f.version ⟨some node, some f, csf + c, false⟩)
                  f.version with
              | none => simp only [hlk] at hrun; cases hrun
              | some e0 =>
                simp only [hlk] at hrun
                by_cases himp : (!e0.finished && decide (e0.cost > csf + c)) = true
                · rw [if_pos himp] at hrun
                  cases hins2 : insortE (csf, f.version) q1 with
                  | error e1 =>
                    simp only [hins2, exceptErrorBind] at hrun
                    cases hrun
                  | ok q2 =>
                    simp only [hins2, exceptOkBind] at hrun
                    refine ih _ _ r hrestmem ?_ hrun
                    exact StInv_insert g tV sV _ hinv1 f.version
                      ⟨some node, some f, csf, false⟩
                      (fun f' hf' => by
                        cases hf'
                        exact ⟨⟨node, rfl, hfmem⟩, hrefl, hgt⟩)
                      (by simp)
                · rw [if_neg himp] at hrun
                  exact ih _ _ r hrestmem hinv1 hrun

/-- The main Dijkstra loop keeps the invariant. -/
theorem StInv_dijkstraLoop (g : Graph) (tV sV : VersionNumber)
    (cost : KnownFile → Except PyErr Nat) :
    ∀ (fuel : Nat) (q : PQueue) (st st' : StatusMap),
      StInv g tV sV st →
      dijkstraLoop cost g tV fuel q st = .ok st' →
      StInv g tV sV st' := by
  intro fuel
  induction fuel with
  | zero =>
    intro q st st' _ hrun
    cases hrun
  | succ n ih =>
    intro q st st' hinv hrun
    cases q with
    | nil =>
      simp only [dijkstraLoop] at hrun
      cases hrun
      exact hinv
    | cons head qrest =>
      obtain ⟨csf, node⟩ := head
      simp only [dijkstraLoop] at hrun
      cases hlk : lookupSt st node with
      | none => simp only [hlk] at hrun; cases hrun
      | some entry =>
        simp only [hlk] at hrun
        by_cases hfin : entry.finished = true
        · rw [if_pos hfin] at hrun
          exact ih qrest st st' hinv hrun
        · rw [if_neg hfin] at hrun
          have hinvF := StInv_setFinished g tV sV st hinv node
          by_cases heq : eqPy node tV = true
          · rw [if_pos heq] at hrun
            cases hrun
            exact hinvF
          · rw [if_neg heq] at hrun
            cases hrel : relaxEdges cost tV node csf (lookupUpgrades g node) qrest
                (setFinishedSt st node) with
            | error e =>
              simp only [hrel, exceptErrorBind] at hrun
              cases hrun
            | ok r =>
              simp only [hrel, exceptOkBind] at hrun
              exact ih r.1 r.2 st'
                (StInv_relax g tV sV cost node csf (lookupUpgrades g node) qrest
                  (setFinishedSt st node) r (fun _ hx => hx) hinvF hrel)
                hrun

/-- Walking the predecessor chain from any node produces a chain whose
edges all satisfy the wiring and pruning conditions, ending at the source's
seed entry. -/
theorem rebuildPath_chain (g : Graph) (tV sV : VersionNumber) (st : StatusMap)
    (hinv : StInv g tV sV st) (hwf : graphWFb g = true) :
    ∀ (fuel : Nat) (cur : VersionNumber) (acc path : List KnownFile),
      (∀ v, eqPy v cur = true → chainCond tV v acc) →
      rebuildPath st fuel cur acc = .ok path →
      chainCond tV sV path := by
  intro fuel
  induction fuel with
  | zero =>
    intro cur acc path _ hrun
    cases hrun
  | succ n ih =>
    intro cur acc path hacc hrun
    simp only [rebuildPath] at hrun
    cases hlk : lookupSt st cur with
    | none => simp only [hlk] at hrun; cases hrun
    | some e =>
      simp only [hlk] at hrun
      obtain ⟨k, hk, hkmem⟩ := lookupSt_some st cur e hlk
      obtain ⟨hpf, hpn⟩ := hinv k e hkmem
      cases hef : e.file with
      | none =>
        simp only [hef] at hrun
        cases hrun
        obtain ⟨rfl, -⟩ := hpn hef
        exact hacc k hk
      | some f =>
        simp only [hef] at hrun
        obtain ⟨⟨p, hprev, hlkp⟩, hkf, hgt⟩ := hpf f hef
        simp only [hprev] at hrun
        refine ih p (f :: acc) path ?_ hrun
        intro v hv
        refine ⟨?_, hgt, ?_⟩
        · obtain ⟨k2, hk2, hin⟩ := graphWFb_lookup g hwf p f hlkp
          have hvk2 : eqPy v k2 = true :=
            eqPy_trans v p k2 hv (eqPy_symm k2 p hk2)
          rw [inAnyE_congr v k2 hvk2]
          exact hin
        · apply hacc f.version
          exact eqPy_trans f.version k cur (eqPy_symm k f.version hkf) hk

/-- C6, amended: the monotonicity claim fails (see
`c6_monotonicity_counterexample`: `new_version`'s wiring loop has no
downgrade filter, so a returned path can step down).  What does hold for
every returned path of a well-wired graph: each edge leaves a node matching
one of its `from_versions` patterns, and no edge on the path produces a
version strictly greater than the target. -/
theorem c6_amended_path_edges (g : Graph) (cost : KnownFile → Except PyErr Nat)
    (s t : List Char) (fuel : Nat) (path : List KnownFile)
    (hwf : graphWFb g = true)
    (hrun : getBestPath g cost s t fuel = .ok path) :
    chainCond (parseVersion t) (parseVersion s) path := by
  simp only [getBestPath] at hrun
  cases hloop : dijkstraLoop cost g (parseVersion t) fuel [(0, parseVersion s)]
      [(parseVersion s, ⟨none, none, 0, false⟩)] with
  | error e =>
    simp only [hloop, exceptErrorBind] at hrun
    cases hrun
  | ok st1 =>
    simp only [hloop, exceptOkBind] at hrun
    have hinv0 : StInv g (parseVersion t) (parseVersion s)
        [(parseVersion s, ⟨none, none, 0, false⟩)] := by
      intro k e hmem
      simp only [List.mem_singleton, Prod.mk.injEq] at hmem
      obtain ⟨rfl, rfl⟩ := hmem
      refine ⟨?_, ?_⟩
      · intro f hf
        cases hf
      · intro _
        exact ⟨rfl, rfl⟩
    have hinv1 := StInv_dijkstraLoop g (parseVersion t) (parseVersion s) cost
      fuel _ _ st1 hinv0 hloop
    by_cases hck : containsKeySt st1 (parseVersion t) = true
    · rw [if_pos hck] at hrun
      exact rebuildPath_chain g (parseVersion t) (parseVersion s) st1 hinv1 hwf
        (st1.length + 1) (parseVersion t) [] path (fun v _ => trivial) hrun
    · rw [if_neg hck] at hrun
      cases hrun

/-- C6, counterexample to the claim as stated: in the graph built from a
full install (producing 1.0, applicable from `*`) and a patch (producing
2.0 from `0.*`), `get_best_path("2.0", "1.0")` returns the one-edge path
through the full install, whose produced version 1.0 is strictly *less*
than the 2.0 node it leaves — a downgrade step, wired by `new_version`
during `add_file`. -/
theorem c6_monotonicity_counterexample :
    mkGraph "ex" "w" [c6Full, c6Patch] = .ok c6Graph ∧
    getBestPath c6Graph c1Cost "2.0".toList "1.0".toList 20 = .ok [c6Full] ∧
    containsVN c6Graph.versions (parseVersion "2.0".toList) = true ∧
    vcmp (parseVersion "2.0".toList) c6Full.version = .ok .gt := by decide

/-- C6's amended theorem at a concrete run: the path `1.0 → 2.0` through
the witness graph's patch satisfies the wiring and pruning conditions. -/
theorem c6_amended_path_edges_witness :
    chainCond (parseVersion "2.0".toList) (parseVersion "1.0".toList) [c6wPatch] :=
  c6_amended_path_edges c6wGraph c1Cost "1.0".toList "2.0".toList 20 [c6wPatch]
    (by decide) (by decide)

/-! ### String-primitive lemmas for the round-trip proof -/

theorem dropWhile_eq_self_of_head (p : Char → Bool) :
    ∀ s : List Char, (∀ x, s.head? = some x → p x = false) → s.dropWhile p = s := by
  intro s h
  cases s with
  | nil => rfl
  | cons c rest =>
    rw [List.dropWhile_cons, if_neg]
    rw [h c rfl]
    exact Bool.false_ne_true

theorem dropWhile_head_not (p : Char → Bool) :
    ∀ (s : List Char) (x : Char), (s.dropWhile p).head? = some x → p x = false := by
  intro s
  induction s with
  | nil => intro x h; cases h
  | cons c rest ih =>
    intro x h
    by_cases hc : p c = true
    · rw [List.dropWhile_cons, if_pos hc] at h
      exact ih x h
    · rw [List.dropWhile_cons, if_neg hc] at h
      cases h
      exact Bool.not_eq_true _ |>.mp hc

/-- `rstrip` is the identity when the last character is not stripped. -/
theorem pyRstrip_noop (p : Char → Bool) (s : List Char)
    (h : ∀ x, s.getLast? = some x → p x = false) : pyRstrip p s = s := by
  unfold pyRstrip
  rw [dropWhile_eq_self_of_head p s.reverse
    (fun x hx => h x (by rwa [List.head?_reverse] at hx)), List.reverse_reverse]

/-- `rstrip` never ends in a stripped character. -/
theorem pyRstrip_last_not (p : Char → Bool) (s : List Char) :
    ∀ x, (pyRstrip p s).getLast? = some x → p x = false := by
  intro x hx
  unfold pyRstrip at hx
  rw [List.getLast?_reverse] at hx
  exact dropWhile_head_not p s.reverse x hx

/-- `rstrip` keeps a subset of the characters. -/
theorem pyRstrip_sub (p : Char → Bool) (s : List Char) :
    ∀ c ∈ pyRstrip p s, c ∈ s := by
  intro c hc
  unfold pyRstrip at hc
  rw [List.mem_reverse] at hc
  have hsub : List.Sublist (s.reverse.dropWhile p) s.reverse :=
    List.dropWhile_sublist _
  have hmem := hsub.mem hc
  rwa [List.mem_reverse] at hmem

/-- The string is its rstrip plus the stripped (all-`p`) suffix. -/
theorem pyRstrip_append (p : Char → Bool) (s : List Char) :
    s = pyRstrip p s ++ s.drop (pyRstrip p s).length ∧
      (s.drop (pyRstrip p s).length).all p = true := by
  have hsplit : s = pyRstrip p s ++ (s.reverse.takeWhile p).reverse := by
    unfold pyRstrip
    rw [← List.reverse_append, List.takeWhile_append_dropWhile, List.reverse_reverse]
  have hdrop : s.drop (pyRstrip p s).length = (s.reverse.takeWhile p).reverse := by
    nth_rewrite 2 [hsplit]
    exact List.drop_left _ _
  constructor
  · rw [hdrop]
    exact hsplit
  · rw [hdrop, List.all_eq_true]
    intro x hx
    rw [List.mem_reverse] at hx
    exact List.mem_takeWhile_imp hx

theorem getLast?_mem_of_eq {α : Type} (l : List α) (x : α) (h : l.getLast? = some x) :
    x ∈ l := by
  obtain ⟨h1, rfl⟩ := List.mem_getLast?_eq_getLast (Option.mem_def.mpr h)
  exact List.getLast_mem h1

theorem dropWhile_append_all (p : Char → Bool) :
    ∀ (a b : List Char), a.all p = true → (a ++ b).dropWhile p = b.dropWhile p := by
  intro a
  induction a with
  | nil => intro b _; rfl
  | cons c rest ih =>
    intro b h
    rw [List.all_cons, Bool.and_eq_true] at h
    rw [List.cons_append, List.dropWhile_cons, if_pos h.1]
    exact ih b h.2

/-- Stripping trailing digits from `name ++ digits` gives back `name` when
`name` does not itself end in a digit. -/
theorem pyRstrip_strip_digits (nm d : List Char)
    (hnm : ∀ x, nm.getLast? = some x → isAsciiDigit x = false)
    (hd : d.all isAsciiDigit = true) :
    pyRstrip isAsciiDigit (nm ++ d) = nm := by
  unfold pyRstrip
  rw [List.reverse_append, dropWhile_append_all _ _ _ (by rwa [List.all_reverse]),
    dropWhile_eq_self_of_head _ _
      (fun x hx => hnm x (by rwa [List.head?_reverse] at hx)),
    List.reverse_reverse]

theorem pySplit_ne_nil (sep : Char) : ∀ s : List Char, pySplit sep s ≠ [] := by
  intro s
  induction s with
  | nil => simp [pySplit]
  | cons c rest ih =>
    by_cases hc : c = sep
    · simp [pySplit, hc]
    · cases hps : pySplit sep rest with
      | nil => exact absurd hps ih
      | cons h t => simp [pySplit, hc, hps]

theorem pySplit_no_sep (sep : Char) :
    ∀ (s piece : List Char), piece ∈ pySplit sep s → ∀ c ∈ piece, c ≠ sep := by
  intro s
  induction s with
  | nil =>
    intro piece hp c hc
    simp only [pySplit, List.mem_singleton] at hp
    rw [hp] at hc
    cases hc
  | cons x rest ih =>
    intro piece hp c hc
    by_cases hx : x = sep
    · rw [pySplit, if_pos hx] at hp
      rcases List.mem_cons.mp hp with h | h
      · rw [h] at hc; cases hc
      · exact ih piece h c hc
    · rw [pySplit, if_neg hx] at hp
      cases hps : pySplit sep rest with
      | nil => exact absurd hps (pySplit_ne_nil sep rest)
      | cons hh tt =>
        rw [hps] at hp
        rcases List.mem_cons.mp hp with h | h
        · rw [h] at hc
          rcases List.mem_cons.mp hc with h2 | h2
          · rw [h2]; exact hx
          · exact ih hh (by rw [hps]; exact List.mem_cons_self hh tt) c h2
        · exact ih piece (by rw [hps]; exact List.mem_cons_of_mem hh h) c hc

theorem pySplit_no_occur (sep : Char) :
    ∀ s : List Char, (∀ c ∈ s, c ≠ sep) → pySplit sep s = [s] := by
  intro s
  induction s with
  | nil => intro _; rfl
  | cons x rest ih =>
    intro h
    rw [pySplit, if_neg (h x (List.mem_cons_self x rest)),
      ih (fun c hc => h c (List.mem_cons_of_mem x hc))]

theorem pySplit_append_sep (sep : Char) :
    ∀ (a r : List Char), (∀ c ∈ a, c ≠ sep) →
      pySplit sep (a ++ sep :: r) = a :: pySplit sep r := by
  intro a
  induction a with
  | nil =>
    intro r _
    rw [List.nil_append, pySplit, if_pos rfl]
  | cons x a' ih =>
    intro r h
    rw [List.cons_append, pySplit, if_neg (h x (List.mem_cons_self x a')),
      ih r (fun c hc => h c (List.mem_cons_of_mem x hc))]

theorem pyPartition_no_sep (sep : Char) :
    ∀ s : List Char, (∀ c ∈ s, c ≠ sep) → pyPartition sep s = (s, false, []) := by
  intro s
  induction s with
  | nil => intro _; rfl
  | cons x rest ih =>
    intro h
    rw [pyPartition, if_neg (h x (List.mem_cons_self x rest)),
      ih (fun c hc => h c (List.mem_cons_of_mem x hc))]

theorem pyPartition_append_sep (sep : Char) :
    ∀ (a b : List Char), (∀ c ∈ a, c ≠ sep) →
      pyPartition sep (a ++ sep :: b) = (a, true, b) := by
  intro a
  induction a with
  | nil =>
    intro b _
    rw [List.nil_append, pyPartition, if_pos rfl]
  | cons x a' ih =>
    intro b h
    rw [List.cons_append, pyPartition, if_neg (h x (List.mem_cons_self x a')),
      ih b (fun c hc => h c (List.mem_cons_of_mem x hc))]

theorem pyPartition_after_sub (sep : Char) :
    ∀ s : List Char, ∀ c ∈ (pyPartition sep s).2.2, c ∈ s := by
  intro s
  induction s with
  | nil => intro c hc; cases hc
  | cons x rest ih =>
    intro c hc
    by_cases hx : x = sep
    · rw [pyPartition, if_pos hx] at hc
      exact List.mem_cons_of_mem x hc
    · rw [pyPartition, if_neg hx] at hc
      exact List.mem_cons_of_mem x (ih c hc)

theorem joinSep_getLast? (sep : Char) :
    ∀ (l : List (List Char)) (x : List Char), l.getLast? = some x → x ≠ [] →
      (joinSep sep l).getLast? = x.getLast? := by
  intro l
  induction l with
  | nil => intro x hx; cases hx
  | cons a t ih =>
    intro x hx hne
    cases t with
    | nil =>
      simp only [List.getLast?_singleton, Option.some.injEq] at hx
      rw [← hx]
      rfl
    | cons b t' =>
      rw [List.getLast?_cons_cons] at hx
      have hJ := ih x hx hne
      show (a ++ sep :: joinSep sep (b :: t')).getLast? = x.getLast?
      rw [List.getLast?_append_of_ne_nil _ (by simp)]
      cases hj : joinSep sep (b :: t') with
      | nil =>
        rw [hj] at hJ
        simp only [List.getLast?_nil] at hJ
        cases hx2 : x.getLast? with
        | none =>
          cases x with
          | nil => exact absurd rfl hne
          | cons y ys => simp [List.getLast?_eq_getLast] at hx2
        | some c => rw [hx2] at hJ; cases hJ
      | cons j js =>
        rw [hj] at hJ
        rw [List.getLast?_cons_cons, hJ]

theorem pySplit_joinSep_suffix (sep : Char) :
    ∀ (l : List (List Char)) (suf : List Char), l ≠ [] →
      (∀ pc ∈ l, ∀ c ∈ pc, c ≠ sep) → (∀ c ∈ suf, c ≠ sep) →
      pySplit sep (joinSep sep l ++ suf) =
        l.dropLast ++ [(l.getLast?.getD []) ++ suf] := by
  intro l
  induction l with
  | nil => intro suf h; exact absurd rfl h
  | cons a t ih =>
    intro suf _ hl hsuf
    cases t with
    | nil =>
      show pySplit sep (a ++ suf) = [] ++ [a ++ suf]
      rw [List.nil_append, pySplit_no_occur]
      intro c hc
      rcases List.mem_append.mp hc with h | h
      · exact hl a (List.mem_cons_self a []) c h
      · exact hsuf c h
    | cons b t' =>
      show pySplit sep (a ++ sep :: joinSep sep (b :: t') ++ suf) = _
      rw [List.append_assoc, List.cons_append,
        pySplit_append_sep sep a _ (hl a (List.mem_cons_self a (b :: t'))),
        ih suf (by simp) (fun pc hpc => hl pc (List.mem_cons_of_mem a hpc)) hsuf]
      rw [List.dropLast_cons₂, List.cons_append]
      rfl

/-! ### Decimal rendering and `int()` lemmas -/

theorem getLast?_cons_of_ne_nil {α : Type} (a : α) (l : List α) (h : l ≠ []) :
    (a :: l).getLast? = l.getLast? := by
  cases l with
  | nil => exact absurd rfl h
  | cons b t => exact List.getLast?_cons_cons

theorem natRenderAux_eq :
    ∀ (fuel n : Nat) (acc : List Char), n < fuel →
      natRenderAux fuel n acc = natRenderRec n ++ acc := by
  intro fuel
  induction fuel with
  | zero => intro n acc h; omega
  | succ m ih =>
    intro n acc h
    unfold natRenderAux natRenderRec
    by_cases h10 : n < 10
    · rw [if_pos h10, dif_pos h10]
      rfl
    · rw [if_neg h10, dif_neg h10,
        ih (n / 10) (digitChar (n % 10) :: acc)
          (by
            have h2 : n / 10 < n := @Nat.div_lt_self n 10 (by omega) (by omega)
            omega)]
      simp

theorem natRender_eq_rec (n : Nat) : natRender n = natRenderRec n := by
  rw [natRender, natRenderAux_eq (n + 1) n [] (by omega), List.append_nil]

theorem digitChar_is_digit (d : Nat) (h : d < 10) : isAsciiDigit (digitChar d) = true := by
  unfold digitChar
  rcases d with _|_|_|_|_|_|_|_|_|_|d <;> first | decide | exact absurd h (by omega)

theorem digitChar_ne (d : Nat) (h : d < 10) :
    digitChar d ≠ '-' ∧ digitChar d ≠ '.' ∧ digitChar d ≠ '_' ∧ digitChar d ≠ '*' := by
  unfold digitChar
  rcases d with _|_|_|_|_|_|_|_|_|_|d <;> first | decide | exact absurd h (by omega)

theorem digitChar_val (d : Nat) (h : d < 10) : (digitChar d).toNat - 48 = d := by
  unfold digitChar
  rcases d with _|_|_|_|_|_|_|_|_|_|d <;> first | decide | omega

theorem natRenderRec_all_digits : ∀ n : Nat, (natRenderRec n).all isAsciiDigit = true := by
  intro n
  induction n using Nat.strong_induction_on with
  | _ n ih =>
    unfold natRenderRec
    by_cases h : n < 10
    · simp [h, digitChar_is_digit n h]
    · rw [dif_neg h, List.all_append]
      have h1 := ih (n / 10) (@Nat.div_lt_self n 10 (by omega) (by omega))
      have h2 := digitChar_is_digit (n % 10) (Nat.mod_lt n (by omega))
      simp [h1, h2]

theorem natRenderRec_ne_nil (n : Nat) : natRenderRec n ≠ [] := by
  unfold natRenderRec
  by_cases h : n < 10
  · simp [h]
  · simp [h]

theorem natRenderRec_last_digit (n : Nat) (x : Char)
    (h : (natRenderRec n).getLast? = some x) : isAsciiDigit x = true := by
  have hm := getLast?_mem_of_eq _ x h
  have hall := natRenderRec_all_digits n
  rw [List.all_eq_true] at hall
  exact hall x hm

theorem digitsAcc_append (xs ys : List Char) :
    ∀ a : Nat, digitsAcc a (xs ++ ys) = digitsAcc (digitsAcc a xs) ys := by
  induction xs with
  | nil => intro a; rfl
  | cons c rest ih =>
    intro a
    show digitsAcc (a * 10 + (c.toNat - 48)) (rest ++ ys) =
      digitsAcc (digitsAcc (a * 10 + (c.toNat - 48)) rest) ys
    exact ih _

theorem digitsAcc_rec : ∀ (n : Nat) (a : Nat),
    digitsAcc a (natRenderRec n) = a * 10 ^ (natRenderRec n).length + n := by
  intro n
  induction n using Nat.strong_induction_on with
  | _ n ih =>
    intro a
    unfold natRenderRec
    by_cases h : n < 10
    · rw [dif_pos h]
      show a * 10 + ((digitChar n).toNat - 48) = a * 10 ^ (List.length [digitChar n]) + n
      rw [digitChar_val n h, List.length_singleton, pow_one]
    · rw [dif_neg h, digitsAcc_append _ _ a,
        ih (n / 10) (@Nat.div_lt_self n 10 (by omega) (by omega)) a]
      show (a * 10 ^ (natRenderRec (n / 10)).length + n / 10) * 10 +
          ((digitChar (n % 10)).toNat - 48) =
        a * 10 ^ (natRenderRec (n / 10) ++ [digitChar (n % 10)]).length + n
      rw [digitChar_val (n % 10) (Nat.mod_lt n (by omega)), List.length_append,
        List.length_singleton, pow_succ]
      have hdm := Nat.div_add_mod n 10
      ring_nf
      omega

theorem digitsVal_natRenderRec (n : Nat) : digitsVal (natRenderRec n) = some n := by
  unfold digitsVal
  rw [if_pos ⟨natRenderRec_ne_nil n, natRenderRec_all_digits n⟩, digitsAcc_rec n 0]
  simp

theorem digit_not_space (c : Char) (h : isAsciiDigit c = true) : isPySpace c = false := by
  by_contra hcon
  rw [Bool.not_eq_false] at hcon
  simp only [isPySpace, Bool.or_eq_true, decide_eq_true_eq] at hcon
  rcases hcon with ((((h1 | h1) | h1) | h1) | h1) | h1 <;> subst h1 <;>
    exact absurd h (by decide)

/-- Python's `int()` whitespace strip is the identity on strings whose first
and last characters are not whitespace. -/
theorem stripWs_noop (s : List Char)
    (hh : ∀ x, s.head? = some x → isPySpace x = false)
    (hl : ∀ x, s.getLast? = some x → isPySpace x = false) :
    ((s.dropWhile isPySpace).reverse.dropWhile isPySpace).reverse = s := by
  rw [dropWhile_eq_self_of_head _ s hh,
    dropWhile_eq_self_of_head _ s.reverse
      (fun x hx => hl x (by rwa [List.head?_reverse] at hx)),
    List.reverse_reverse]

theorem head?_mem_of_eq {α : Type} (l : List α) (x : α) (h : l.head? = some x) :
    x ∈ l := by
  cases l with
  | nil => cases h
  | cons a t =>
    rw [List.head?_cons, Option.some.injEq] at h
    rw [← h]
    exact List.mem_cons_self a t

theorem pyInt_natRenderRec (n : Nat) : pyInt (natRenderRec n) = some (n : Int) := by
  have hall := natRenderRec_all_digits n
  have hstrip := stripWs_noop (natRenderRec n)
    (fun x hx => digit_not_space x (by
      rw [List.all_eq_true] at hall
      exact hall x (head?_mem_of_eq _ x hx)))
    (fun x hx => digit_not_space x (natRenderRec_last_digit n x hx))
  cases hcc : natRenderRec n with
  | nil => exact absurd hcc (natRenderRec_ne_nil n)
  | cons c cs =>
    have hcd : isAsciiDigit c = true := by
      rw [List.all_eq_true] at hall
      exact hall c (by rw [hcc]; exact List.mem_cons_self c cs)
    rw [hcc] at hstrip
    simp only [pyInt, hstrip]
    rw [if_neg (show ¬(c = '-') by rintro rfl; exact absurd hcd (by decide)),
      if_neg (show ¬(c = '+') by rintro rfl; exact absurd hcd (by decide)),
      ← hcc, digitsVal_natRenderRec]
    rfl

theorem pyInt_intRender (i : Int) : pyInt (intRender i) = some i := by
  unfold intRender
  by_cases h : i < 0
  · rw [if_pos h, natRender_eq_rec]
    have hne := natRenderRec_ne_nil i.natAbs
    have hstrip := stripWs_noop ('-' :: natRenderRec i.natAbs)
      (fun x hx => by cases hx; decide)
      (fun x hx => by
        rw [getLast?_cons_of_ne_nil '-' _ hne] at hx
        exact digit_not_space x (natRenderRec_last_digit i.natAbs x hx))
    simp only [pyInt, hstrip]
    simp [digitsVal_natRenderRec]
    rw [abs_of_neg h, neg_neg]
  · rw [if_neg h, natRender_eq_rec, pyInt_natRenderRec]
    congr 1
    omega

theorem intRender_ne_nil (i : Int) : intRender i ≠ [] := by
  unfold intRender
  by_cases h : i < 0
  · simp [h]
  · simp [h, natRender_eq_rec, natRenderRec_ne_nil]

theorem intRender_chars (i : Int) :
    ∀ c ∈ intRender i, isAsciiDigit c = true ∨ c = '-' := by
  intro c hc
  unfold intRender at hc
  by_cases h : i < 0
  · rw [if_pos h, natRender_eq_rec] at hc
    rcases List.mem_cons.mp hc with h1 | h1
    · exact Or.inr h1
    · refine Or.inl ?_
      have hall := natRenderRec_all_digits i.natAbs
      rw [List.all_eq_true] at hall
      exact hall c h1
  · rw [if_neg h, natRender_eq_rec] at hc
    refine Or.inl ?_
    have hall := natRenderRec_all_digits i.toNat
    rw [List.all_eq_true] at hall
    exact hall c hc

theorem intRender_last_digit (i : Int) (x : Char)
    (h : (intRender i).getLast? = some x) : isAsciiDigit x = true := by
  unfold intRender at h
  by_cases hi : i < 0
  · rw [if_pos hi, natRender_eq_rec,
      getLast?_cons_of_ne_nil '-' _ (natRenderRec_ne_nil i.natAbs)] at h
    exact natRenderRec_last_digit i.natAbs x h
  · rw [if_neg hi, natRender_eq_rec] at h
    exact natRenderRec_last_digit i.toNat x h

theorem mapM_pyInt_intRender : ∀ parts : List Int,
    (parts.map intRender).mapM pyInt = some parts := by
  intro parts
  induction parts with
  | nil => rfl
  | cons x rest ih =>
    rw [List.map_cons, List.mapM_cons, pyInt_intRender, ih]
    rfl

/-! ### Evaluation and shape of `parseVersion` -/

theorem dropWhile_head_not_gen {α : Type} (p : α → Bool) :
    ∀ (s : List α) (x : α), (s.dropWhile p).head? = some x → p x = false := by
  intro s
  induction s with
  | nil => intro x h; cases h
  | cons c rest ih =>
    intro x h
    by_cases hc : p c = true
    · rw [List.dropWhile_cons, if_pos hc] at h
      exact ih x h
    · rw [List.dropWhile_cons, if_neg hc] at h
      rw [List.head?_cons, Option.some.injEq] at h
      rw [← h]
      exact Bool.not_eq_true _ |>.mp hc

theorem dropWhile_eq_self_gen {α : Type} (p : α → Bool) (s : List α)
    (h : ∀ x, s.head? = some x → p x = false) : s.dropWhile p = s := by
  cases s with
  | nil => rfl
  | cons c rest =>
    rw [List.dropWhile_cons, if_neg]
    rw [h c rfl]
    exact Bool.false_ne_true

theorem dropWhile_idem {α : Type} (p : α → Bool) (s : List α) :
    (s.dropWhile p).dropWhile p = s.dropWhile p :=
  dropWhile_eq_self_gen p _ (fun x hx => dropWhile_head_not_gen p s x hx)

theorem trimTrailingZeros_idem (l : List Int) :
    trimTrailingZeros (trimTrailingZeros l) = trimTrailingZeros l := by
  cases l with
  | nil => rfl
  | cons h t =>
    show h :: _ = h :: _
    rw [List.reverse_reverse, dropWhile_idem]

theorem trim_cons_ne_nil (h : Int) (t : List Int) :
    trimTrailingZeros (h :: t) ≠ [] := by
  simp [trimTrailingZeros]

theorem mapM_pyInt_length :
    ∀ (l : List (List Char)) (r : List Int), l.mapM pyInt = some r → r.length = l.length := by
  intro l
  induction l with
  | nil =>
    intro r h
    cases h
    rfl
  | cons x xs ih =>
    intro r h
    rw [List.mapM_cons] at h
    cases hx : pyInt x with
    | none => rw [hx] at h; cases h
    | some a =>
      rw [hx] at h
      cases hxs : xs.mapM pyInt with
      | none => rw [hxs] at h; cases h
      | some rs =>
        rw [hxs] at h
        cases h
        rw [List.length_cons, List.length_cons, ih rs hxs]

theorem partStrsOf_ne_nil (s : List Char) : partStrsOf s ≠ [] := by
  unfold partStrsOf
  simp

theorem parse_qualifier_ne_qany (q : List Char) : parse_qualifier q ≠ .qany := by
  unfold parse_qualifier
  by_cases h : q = "final".toList
  · rw [if_pos h]
    intro hc
    cases hc
  · rw [if_neg h]
    intro hc
    cases hc

theorem parse_qualifier_shape (q : List Char) (o : PyOrd) (n : Nat) (nm : List Char)
    (h : parse_qualifier q = .qnamed o n nm) :
    o = KNOWN_QUALIFIERS_get nm ∧ nm = pyRstrip isAsciiDigit q := by
  unfold parse_qualifier at h
  by_cases hf : q = "final".toList
  · rw [if_pos hf] at h
    cases h
  · rw [if_neg hf] at h
    injection h with h1 h2 h3
    exact ⟨h1.symm.trans (by rw [h3]), h3.symm⟩

/-- `VersionNumber.__init__` always records the wildcard flag computed from
the original string. -/
theorem parse_wildcard_field (s : List Char) :
    (parseVersion s).wildcard = wildcardOf s := by
  simp only [parseVersion]
  split
  · rfl
  · split
    · rfl
    · split
      · split
        · rfl
        · split
          · rfl
          · rfl
          · split
            · rfl
            · rfl
      · rfl

theorem parse_eval_empty (s : List Char) (h : rstripDotStar s = []) :
    parseVersion s = ⟨false, [], .qnone, wildcardOf s, []⟩ := by
  simp only [parseVersion]
  rw [if_pos h]

theorem parse_eval_badints (s : List Char) (h1 : rstripDotStar s ≠ [])
    (hm : (partStrsOf s).mapM pyInt = none) :
    parseVersion s = mkInvalid (rstripDotStar s) (wildcardOf s) := by
  simp only [parseVersion, h1, hm, if_false]

theorem parse_eval_noqual (s : List Char) (h1 : rstripDotStar s ≠ [])
    (ints : List Int) (hm : (partStrsOf s).mapM pyInt = some ints)
    (hq : (partitionOf s).2.1 = false) :
    parseVersion s = ⟨false, if wildcardOf s then ints else trimTrailingZeros ints,
      .qnone, wildcardOf s, []⟩ := by
  simp only [parseVersion, h1, hm, hq, Bool.false_eq_true, if_false]

theorem parse_eval_qual_final (s : List Char) (h1 : rstripDotStar s ≠ [])
    (ints : List Int) (hm : (partStrsOf s).mapM pyInt = some ints)
    (hq : (partitionOf s).2.1 = true)
    (hnb : ¬(wildcardOf s = true ∧ (partitionOf s).2.2 = []))
    (hpq : parse_qualifier (partitionOf s).2.2 = .qnone) :
    parseVersion s = ⟨false, if wildcardOf s then ints else trimTrailingZeros ints,
      .qnone, wildcardOf s, []⟩ := by
  simp only [parseVersion, h1, hm, hq, if_true, if_false]
  rw [if_neg hnb]
  simp only [hpq]

theorem parse_eval_qual (s : List Char) (h1 : rstripDotStar s ≠ [])
    (ints : List Int) (hm : (partStrsOf s).mapM pyInt = some ints)
    (hq : (partitionOf s).2.1 = true)
    (hnb : ¬(wildcardOf s = true ∧ (partitionOf s).2.2 = []))
    (o : PyOrd) (n : Nat) (nm : List Char)
    (hpq : parse_qualifier (partitionOf s).2.2 = .qnamed o n nm)
    (hnw : ¬(n ≠ 0 ∧ wildcardOf s = true)) :
    parseVersion s = ⟨false, if wildcardOf s then ints else trimTrailingZeros ints,
      .qnamed o n nm, wildcardOf s, []⟩ := by
  simp only [parseVersion, h1, hm, hq, if_true, if_false]
  rw [if_neg hnb]
  simp only [hpq]
  rw [if_neg hnw]

/-- Shape of a valid, non-wildcard parse result: the blank version, or a
nonempty trailing-zero-trimmed parts list with either no qualifier or a
named qualifier whose order slot is exactly `KNOWN_QUALIFIERS.get(name,"-1")`,
whose name does not end in a digit and contains no dot. -/
theorem parse_shape (s : List Char) (hv : (parseVersion s).invalid = false)
    (hw : (parseVersion s).wildcard = false) :
    (parseVersion s = ⟨false, [], .qnone, false, []⟩) ∨
    (∃ parts, parts ≠ [] ∧ trimTrailingZeros parts = parts ∧
      (parseVersion s = ⟨false, parts, .qnone, false, []⟩ ∨
       ∃ n nm, (∀ x, nm.getLast? = some x → isAsciiDigit x = false) ∧
         (∀ c ∈ nm, c ≠ '.') ∧
         parseVersion s =
           ⟨false, parts, .qnamed (KNOWN_QUALIFIERS_get nm) n nm, false, []⟩)) := by
  have hwf : wildcardOf s = false := by
    rw [← parse_wildcard_field s]
    exact hw
  by_cases h1 : rstripDotStar s = []
  · left
    rw [parse_eval_empty s h1, hwf]
  · cases hm : (partStrsOf s).mapM pyInt with
    | none =>
      rw [parse_eval_badints s h1 hm] at hv
      cases hv
    | some ints =>
      have hints : ints ≠ [] := by
        intro hnil
        have := mapM_pyInt_length (partStrsOf s) ints hm
        rw [hnil] at this
        exact partStrsOf_ne_nil s (List.length_eq_zero.mp this.symm)
      obtain ⟨ih, it, rfl⟩ : ∃ ih it, ints = ih :: it := by
        cases ints with
        | nil => exact absurd rfl hints
        | cons a b => exact ⟨a, b, rfl⟩
      right
      refine ⟨trimTrailingZeros (ih :: it), trim_cons_ne_nil ih it,
        trimTrailingZeros_idem (ih :: it), ?_⟩
      by_cases hq : (partitionOf s).2.1 = true
      · cases hpq : parse_qualifier (partitionOf s).2.2 with
        | qnone =>
          left
          rw [parse_eval_qual_final s h1 _ hm hq
            (by rw [hwf]; rintro ⟨h, -⟩; cases h) hpq, hwf]
          simp
        | qany => exact absurd hpq (parse_qualifier_ne_qany _)
        | qnamed o n nm =>
          right
          obtain ⟨ho, hnm⟩ := parse_qualifier_shape _ o n nm hpq
          refine ⟨n, nm, ?_, ?_, ?_⟩
          · intro x hx
            rw [hnm] at hx
            exact pyRstrip_last_not isAsciiDigit _ x hx
          · intro c hc
            have hcb : c ∈ (partitionOf s).2.2 := by
              rw [hnm] at hc
              exact pyRstrip_sub isAsciiDigit _ c hc
            have hcl : c ∈ lastPieceOf s := pyPartition_after_sub '_' _ c hcb
            have hlp : lastPieceOf s ∈ piecesOf s := by
              unfold lastPieceOf
              cases hg : (piecesOf s).getLast? with
              | none =>
                rw [List.getLast?_eq_none_iff] at hg
                exact absurd hg (pySplit_ne_nil '.' _)
              | some x =>
                rw [Option.getD_some]
                exact getLast?_mem_of_eq _ x hg
            exact pySplit_no_sep '.' _ _ hlp c hcl
          · rw [parse_eval_qual s h1 _ hm hq
              (by rw [hwf]; rintro ⟨h, -⟩; cases h) o n nm hpq
              (by rw [hwf]; rintro ⟨-, h⟩; cases h), hwf, ho]
            simp
      · left
        rw [Bool.not_eq_true] at hq
        rw [parse_eval_noqual s h1 _ hm hq, hwf]
        simp

/-! ### Rendering and re-parsing (claim C9) -/

theorem exists_getLast?_of_ne_nil {α : Type} (l : List α) (h : l ≠ []) :
    ∃ x, l.getLast? = some x := by
  cases hl : l.getLast? with
  | none =>
    rw [List.getLast?_eq_none_iff] at hl
    exact absurd hl h
  | some x => exact ⟨x, rfl⟩

theorem getLast?_map_gen {α β : Type} (f : α → β) :
    ∀ l : List α, (l.map f).getLast? = l.getLast?.map f := by
  intro l
  induction l with
  | nil => rfl
  | cons a t ih =>
    cases t with
    | nil => rfl
    | cons b t' =>
      show (f a :: (b :: t').map f).getLast? = ((a :: b :: t').getLast?).map f
      rw [List.map_cons, List.getLast?_cons_cons, List.getLast?_cons_cons, ← List.map_cons]
      exact ih

theorem dropLast_append_getLast_eq {α : Type} (l : List α) (x : α)
    (h : l.getLast? = some x) : l.dropLast ++ [x] = l := by
  have hne : l ≠ [] := by
    intro hn
    rw [hn] at h
    cases h
  rw [List.getLast?_eq_getLast l hne, Option.some.injEq] at h
  rw [← h]
  exact List.dropLast_append_getLast hne

theorem digit_ne_special (c : Char) (h : isAsciiDigit c = true) :
    c ≠ '.' ∧ c ≠ '_' ∧ c ≠ '*' ∧ c ≠ '-' := by
  refine ⟨?_, ?_, ?_, ?_⟩ <;> rintro rfl <;> exact absurd h (by decide)

theorem intRender_no_dot_us (i : Int) :
    ∀ c ∈ intRender i, c ≠ '.' ∧ c ≠ '_' := by
  intro c hc
  rcases intRender_chars i c hc with h | h
  · exact ⟨(digit_ne_special c h).1, (digit_ne_special c h).2.1⟩
  · rw [h]
    exact ⟨by decide, by decide⟩

theorem mapIR_no_dot (parts : List Int) :
    ∀ pc ∈ parts.map intRender, ∀ c ∈ pc, c ≠ '.' := by
  intro pc hpc c hc
  obtain ⟨i, _, rfl⟩ := List.mem_map.mp hpc
  exact (intRender_no_dot_us i c hc).1

theorem mapIR_getLast (parts : List Int) (pl : Int) (hpl : parts.getLast? = some pl) :
    (parts.map intRender).getLast? = some (intRender pl) := by
  rw [getLast?_map_gen intRender parts, hpl]
  rfl

theorem base_getLast (parts : List Int) (pl : Int) (hpl : parts.getLast? = some pl) :
    (joinSep '.' (parts.map intRender)).getLast? = (intRender pl).getLast? :=
  joinSep_getLast? '.' _ _ (mapIR_getLast parts pl hpl) (intRender_ne_nil pl)

theorem base_ne_nil (parts : List Int) (pl : Int) (hpl : parts.getLast? = some pl) :
    joinSep '.' (parts.map intRender) ≠ [] := by
  have hbase := base_getLast parts pl hpl
  obtain ⟨y, hy⟩ := exists_getLast?_of_ne_nil (intRender pl) (intRender_ne_nil pl)
  intro hnil
  rw [hnil, List.getLast?_nil, hy] at hbase
  cases hbase

theorem reparse_split (parts : List Int) (pl : Int)
    (hpl : parts.getLast? = some pl) (suf : List Char)
    (hsd : ∀ c ∈ suf, c ≠ '.') :
    pySplit '.' (joinSep '.' (parts.map intRender) ++ suf) =
      (parts.map intRender).dropLast ++ [intRender pl ++ suf] := by
  have hne : parts.map intRender ≠ [] := by
    intro hnil
    rw [List.map_eq_nil_iff] at hnil
    rw [hnil] at hpl
    cases hpl
  rw [pySplit_joinSep_suffix '.' (parts.map intRender) suf hne (mapIR_no_dot parts) hsd,
    mapIR_getLast parts pl hpl]
  rfl

/-- Re-parsing a canonical rendering `base ++ suf` (with `suf` the qualifier
suffix, dot-free, and a last character that is neither `.` nor `*`): the
wildcard flag is off, the rstrip is the identity, and the split/partition
recover the numeric pieces and the suffix. -/
theorem reparse_fields (parts : List Int) (pl : Int)
    (hpl : parts.getLast? = some pl) (suf : List Char)
    (hsd : ∀ c ∈ suf, c ≠ '.')
    (hlast : ∀ x, (joinSep '.' (parts.map intRender) ++ suf).getLast? = some x →
      x ≠ '.' ∧ x ≠ '*') :
    wildcardOf (joinSep '.' (parts.map intRender) ++ suf) = false ∧
    rstripDotStar (joinSep '.' (parts.map intRender) ++ suf) =
      joinSep '.' (parts.map intRender) ++ suf ∧
    lastPieceOf (joinSep '.' (parts.map intRender) ++ suf) = intRender pl ++ suf ∧
    partStrsOf (joinSep '.' (parts.map intRender) ++ suf) =
      (parts.map intRender).dropLast ++
        [(pyPartition '_' (intRender pl ++ suf)).1] := by
  have hrne : joinSep '.' (parts.map intRender) ++ suf ≠ [] := by
    intro hnil
    exact base_ne_nil parts pl hpl (List.append_eq_nil.mp hnil).1
  obtain ⟨lc, hlc⟩ := exists_getLast?_of_ne_nil _ hrne
  obtain ⟨hlc1, hlc2⟩ := hlast lc hlc
  have hwc : wildcardOf (joinSep '.' (parts.map intRender) ++ suf) = false := by
    simp only [wildcardOf, hlc]
    rw [beq_eq_false_iff_ne]
    simp [hlc2]
  have hrs : rstripDotStar (joinSep '.' (parts.map intRender) ++ suf) =
      joinSep '.' (parts.map intRender) ++ suf := by
    refine pyRstrip_noop _ _ ?_
    intro x hx
    rw [hlc, Option.some.injEq] at hx
    rw [← hx]
    simp [hlc1, hlc2]
  have hpieces : piecesOf (joinSep '.' (parts.map intRender) ++ suf) =
      (parts.map intRender).dropLast ++ [intRender pl ++ suf] := by
    unfold piecesOf
    rw [hrs]
    exact reparse_split parts pl hpl suf hsd
  have hlp : lastPieceOf (joinSep '.' (parts.map intRender) ++ suf) =
      intRender pl ++ suf := by
    unfold lastPieceOf
    rw [hpieces, List.getLast?_concat]
    rfl
  have hps : partStrsOf (joinSep '.' (parts.map intRender) ++ suf) =
      (parts.map intRender).dropLast ++
        [(pyPartition '_' (intRender pl ++ suf)).1] := by
    unfold partStrsOf partitionOf
    rw [hpieces, List.dropLast_concat, hlp]
  exact ⟨hwc, hrs, hlp, hps⟩

theorem render_eval_noqual (parts : List Int) :
    renderVersion ⟨false, parts, .qnone, false, []⟩ =
      joinSep '.' (parts.map intRender) := rfl

theorem render_eval_qual (parts : List Int) (o : PyOrd) (n : Nat) (nm : List Char) :
    renderVersion ⟨false, parts, .qnamed o n nm, false, []⟩ =
      joinSep '.' (parts.map intRender) ++
        '_' :: (nm ++ (if n = 0 then [] else natRender n)) := rfl

theorem parse_qualifier_eval_plain (nm : List Char)
    (hnd : ∀ x, nm.getLast? = some x → isAsciiDigit x = false)
    (hfin : nm ≠ "final".toList) :
    parse_qualifier nm = .qnamed (KNOWN_QUALIFIERS_get nm) 0 nm := by
  simp only [parse_qualifier]
  rw [if_neg hfin, pyRstrip_noop isAsciiDigit nm hnd, List.drop_length]
  rfl

theorem parse_qualifier_eval_digits (nm : List Char) (n : Nat)
    (hnd : ∀ x, nm.getLast? = some x → isAsciiDigit x = false) :
    parse_qualifier (nm ++ natRenderRec n) = .qnamed (KNOWN_QUALIFIERS_get nm) n nm := by
  have hfin : nm ++ natRenderRec n ≠ "final".toList := by
    intro heq
    obtain ⟨y, hy⟩ := exists_getLast?_of_ne_nil (natRenderRec n) (natRenderRec_ne_nil n)
    have hl : (nm ++ natRenderRec n).getLast? = some y := by
      rw [List.getLast?_append_of_ne_nil _ (natRenderRec_ne_nil n)]
      exact hy
    rw [heq] at hl
    have hyl : y = 'l' := by
      have hfl : ("final".toList).getLast? = some 'l' := by decide
      rw [hfl, Option.some.injEq] at hl
      exact hl.symm
    have hd := natRenderRec_last_digit n y hy
    rw [hyl] at hd
    exact absurd hd (by decide)
  simp only [parse_qualifier]
  rw [if_neg hfin,
    pyRstrip_strip_digits nm (natRenderRec n) hnd (natRenderRec_all_digits n),
    List.drop_left, digitsVal_natRenderRec]
  rfl

/-- Re-parsing the rendering of a valid qualifier-free record gives back the
record, provided the parts are nonempty and already trimmed. -/
theorem reparse_noqual (parts : List Int) (hp : parts ≠ [])
    (ht : trimTrailingZeros parts = parts) :
    parseVersion (joinSep '.' (parts.map intRender) ++ []) =
      ⟨false, parts, .qnone, false, []⟩ := by
  obtain ⟨pl, hpl⟩ := exists_getLast?_of_ne_nil parts hp
  have hsd : ∀ c ∈ ([] : List Char), c ≠ '.' := by
    intro c hc
    cases hc
  have hlast : ∀ x, (joinSep '.' (parts.map intRender) ++ ([] : List Char)).getLast? =
      some x → x ≠ '.' ∧ x ≠ '*' := by
    intro x hx
    rw [List.append_nil, base_getLast parts pl hpl] at hx
    have hd := intRender_last_digit pl x hx
    exact ⟨(digit_ne_special x hd).1, (digit_ne_special x hd).2.2.1⟩
  obtain ⟨hwc, hrs, hlp, hps⟩ := reparse_fields parts pl hpl [] hsd hlast
  have hpart : pyPartition '_' (intRender pl ++ []) = (intRender pl, false, []) := by
    rw [List.append_nil]
    exact pyPartition_no_sep '_' (intRender pl)
      (fun c hc => (intRender_no_dot_us pl c hc).2)
  have h1 : rstripDotStar (joinSep '.' (parts.map intRender) ++ []) ≠ [] := by
    rw [hrs]
    intro hnil
    exact base_ne_nil parts pl hpl (List.append_eq_nil.mp hnil).1
  have hm : (partStrsOf (joinSep '.' (parts.map intRender) ++ [])).mapM pyInt =
      some parts := by
    rw [hps, hpart]
    show ((parts.map intRender).dropLast ++ [intRender pl]).mapM pyInt = some parts
    rw [dropLast_append_getLast_eq _ _ (mapIR_getLast parts pl hpl)]
    exact mapM_pyInt_intRender parts
  have hqf : (partitionOf (joinSep '.' (parts.map intRender) ++ [])).2.1 = false := by
    unfold partitionOf
    rw [hlp, hpart]
  rw [parse_eval_noqual _ h1 parts hm hqf, hwc]
  simp [ht]

/-- Re-parsing the rendering of a valid record with a named qualifier gives
back the record, provided the parts are nonempty and trimmed, the name does
not end in a digit and contains no dot, and — when the number is 0 — the
name is not `final` and does not end in `*`. -/
theorem reparse_qual (parts : List Int) (n : Nat) (nm : List Char)
    (hp : parts ≠ []) (ht : trimTrailingZeros parts = parts)
    (hnd : ∀ x, nm.getLast? = some x → isAsciiDigit x = false)
    (hdot : ∀ c ∈ nm, c ≠ '.')
    (hstar : n = 0 → ¬(nm.getLast? = some '*'))
    (hfin : n = 0 → nm ≠ "final".toList) :
    parseVersion (joinSep '.' (parts.map intRender) ++
        '_' :: (nm ++ (if n = 0 then [] else natRender n))) =
      ⟨false, parts, .qnamed (KNOWN_QUALIFIERS_get nm) n nm, false, []⟩ := by
  obtain ⟨pl, hpl⟩ := exists_getLast?_of_ne_nil parts hp
  by_cases h0 : n = 0
  · subst h0
    rw [if_pos rfl, List.append_nil]
    have hsd : ∀ c ∈ '_' :: nm, c ≠ '.' := by
      intro c hc
      rcases List.mem_cons.mp hc with rfl | hc'
      · decide
      · exact hdot c hc'
    have hlast0 : ∀ x, ('_' :: nm).getLast? = some x → x ≠ '.' ∧ x ≠ '*' := by
      intro x hx
      cases nm with
      | nil =>
        rw [List.getLast?_singleton, Option.some.injEq] at hx
        rw [← hx]
        exact ⟨by decide, by decide⟩
      | cons a t =>
        rw [List.getLast?_cons_cons] at hx
        refine ⟨hdot x (getLast?_mem_of_eq _ x hx), ?_⟩
        intro hxs
        rw [hxs] at hx
        exact hstar rfl hx
    have hlast : ∀ x, (joinSep '.' (parts.map intRender) ++ '_' :: nm).getLast? =
        some x → x ≠ '.' ∧ x ≠ '*' := by
      intro x hx
      rw [List.getLast?_append_of_ne_nil _ (List.cons_ne_nil '_' nm)] at hx
      exact hlast0 x hx
    obtain ⟨hwc, hrs, hlp, hps⟩ := reparse_fields parts pl hpl ('_' :: nm) hsd hlast
    have hpart : pyPartition '_' (intRender pl ++ '_' :: nm) =
        (intRender pl, true, nm) :=
      pyPartition_append_sep '_' (intRender pl) nm
        (fun c hc => (intRender_no_dot_us pl c hc).2)
    have h1 : rstripDotStar (joinSep '.' (parts.map intRender) ++ '_' :: nm) ≠ [] := by
      rw [hrs]
      intro hnil
      exact base_ne_nil parts pl hpl (List.append_eq_nil.mp hnil).1
    have hm : (partStrsOf (joinSep '.' (parts.map intRender) ++ '_' :: nm)).mapM pyInt =
        some parts := by
      rw [hps, hpart]
      show ((parts.map intRender).dropLast ++ [intRender pl]).mapM pyInt = some parts
      rw [dropLast_append_getLast_eq _ _ (mapIR_getLast parts pl hpl)]
      exact mapM_pyInt_intRender parts
    have hqt : (partitionOf (joinSep '.' (parts.map intRender) ++ '_' :: nm)).2.1 =
        true := by
      unfold partitionOf
      rw [hlp, hpart]
    have hq22 : (partitionOf (joinSep '.' (parts.map intRender) ++ '_' :: nm)).2.2 =
        nm := by
      unfold partitionOf
      rw [hlp, hpart]
    have hnb : ¬(wildcardOf (joinSep '.' (parts.map intRender) ++ '_' :: nm) = true ∧
        (partitionOf (joinSep '.' (parts.map intRender) ++ '_' :: nm)).2.2 = []) := by
      rw [hwc]
      rintro ⟨hcon, -⟩
      cases hcon
    have hpq : parse_qualifier
        ((partitionOf (joinSep '.' (parts.map intRender) ++ '_' :: nm)).2.2) =
        .qnamed (KNOWN_QUALIFIERS_get nm) 0 nm := by
      rw [hq22]
      exact parse_qualifier_eval_plain nm hnd (hfin rfl)
    have hnw : ¬((0 : Nat) ≠ 0 ∧
        wildcardOf (joinSep '.' (parts.map intRender) ++ '_' :: nm) = true) := by
      rintro ⟨hcon, -⟩
      exact hcon rfl
    rw [parse_eval_qual _ h1 parts hm hqt hnb _ 0 nm hpq hnw, hwc]
    simp [ht]
  · rw [if_neg h0, natRender_eq_rec]
    have hnrne := natRenderRec_ne_nil n
    have htailne : nm ++ natRenderRec n ≠ [] := by
      intro hnil
      exact hnrne (List.append_eq_nil.mp hnil).2
    have hsd : ∀ c ∈ '_' :: (nm ++ natRenderRec n), c ≠ '.' := by
      intro c hc
      rcases List.mem_cons.mp hc with rfl | hc'
      · decide
      · rcases List.mem_append.mp hc' with h | h
        · exact hdot c h
        · have hall := natRenderRec_all_digits n
          rw [List.all_eq_true] at hall
          exact (digit_ne_special c (hall c h)).1
    have hlast : ∀ x, (joinSep '.' (parts.map intRender) ++
        '_' :: (nm ++ natRenderRec n)).getLast? = some x → x ≠ '.' ∧ x ≠ '*' := by
      intro x hx
      rw [List.getLast?_append_of_ne_nil _ (List.cons_ne_nil _ _),
        getLast?_cons_of_ne_nil _ _ htailne,
        List.getLast?_append_of_ne_nil _ hnrne] at hx
      have hd := natRenderRec_last_digit n x hx
      exact ⟨(digit_ne_special x hd).1, (digit_ne_special x hd).2.2.1⟩
    obtain ⟨hwc, hrs, hlp, hps⟩ :=
      reparse_fields parts pl hpl ('_' :: (nm ++ natRenderRec n)) hsd hlast
    have hpart : pyPartition '_' (intRender pl ++ '_' :: (nm ++ natRenderRec n)) =
        (intRender pl, true, nm ++ natRenderRec n) :=
      pyPartition_append_sep '_' (intRender pl) _
        (fun c hc => (intRender_no_dot_us pl c hc).2)
    have h1 : rstripDotStar (joinSep '.' (parts.map intRender) ++
        '_' :: (nm ++ natRenderRec n)) ≠ [] := by
      rw [hrs]
      intro hnil
      exact base_ne_nil parts pl hpl (List.append_eq_nil.mp hnil).1
    have hm : (partStrsOf (joinSep '.' (parts.map intRender) ++
        '_' :: (nm ++ natRenderRec n))).mapM pyInt = some parts := by
      rw [hps, hpart]
      show ((parts.map intRender).dropLast ++ [intRender pl]).mapM pyInt = some parts
      rw [dropLast_append_getLast_eq _ _ (mapIR_getLast parts pl hpl)]
      exact mapM_pyInt_intRender parts
    have hqt : (partitionOf (joinSep '.' (parts.map intRender) ++
        '_' :: (nm ++ natRenderRec n))).2.1 = true := by
      unfold partitionOf
      rw [hlp, hpart]
    have hq22 : (partitionOf (joinSep '.' (parts.map intRender) ++
        '_' :: (nm ++ natRenderRec n))).2.2 = nm ++ natRenderRec n := by
      unfold partitionOf
      rw [hlp, hpart]
    have hnb : ¬(wildcardOf (joinSep '.' (parts.map intRender) ++
          '_' :: (nm ++ natRenderRec n)) = true ∧
        (partitionOf (joinSep '.' (parts.map intRender) ++
          '_' :: (nm ++ natRenderRec n))).2.2 = []) := by
      rw [hwc]
      rintro ⟨hcon, -⟩
      cases hcon
    have hpq : parse_qualifier ((partitionOf (joinSep '.' (parts.map intRender) ++
        '_' :: (nm ++ natRenderRec n))).2.2) =
        .qnamed (KNOWN_QUALIFIERS_get nm) n nm := by
      rw [hq22]
      exact parse_qualifier_eval_digits nm n hnd
    have hnw : ¬(n ≠ 0 ∧ wildcardOf (joinSep '.' (parts.map intRender) ++
        '_' :: (nm ++ natRenderRec n)) = true) := by
      rw [hwc]
      rintro ⟨-, hcon⟩
      cases hcon
    rw [parse_eval_qual _ h1 parts hm hqt hnb _ n nm hpq hnw, hwc]
    simp [ht]

/-- C9 (amended): for every valid, non-wildcard parse result whose qualifier
round-trips (`QualRoundtrips`: it is not a named qualifier with number 0
whose name is exactly `final` or ends in `*`), re-parsing the canonical
string representation yields an `==`-equal version —
`VersionNumber(str(a)) == a`.  The two excluded qualifier families break the
original claim (see the counterexample): `_final` re-parses as no qualifier,
and a trailing `*` re-parses as a wildcard. -/
theorem c9_amended_roundtrip (s : List Char)
    (hv : (parseVersion s).invalid = false)
    (hw : (parseVersion s).wildcard = false)
    (hq : QualRoundtrips (parseVersion s).qualifier) :
    eqPy (parseVersion (renderVersion (parseVersion s))) (parseVersion s) = true := by
  rcases parse_shape s hv hw with h | ⟨parts, hp, ht, h | ⟨n, nm, hnd, hdot, h⟩⟩
  · rw [h]
    decide
  · rw [h, render_eval_noqual, ← List.append_nil (joinSep '.' (parts.map intRender)),
      reparse_noqual parts hp ht]
    simp [eqPy]
  · rw [h] at hq
    have hstar : n = 0 → ¬(nm.getLast? = some '*') := by
      rintro rfl
      exact hq.2
    have hfin : n = 0 → nm ≠ "final".toList := by
      rintro rfl
      exact hq.1
    rw [h, render_eval_qual, reparse_qual parts n nm hp ht hnd hdot hstar hfin]
    simp [eqPy]

/-- Witness for C9 (amended) at the concrete version string `1.2.0_pre3`:
the hypotheses hold and the round trip re-parses to an equal version. -/
theorem c9_amended_roundtrip_witness :
    (parseVersion "1.2.0_pre3".toList).invalid = false ∧
    (parseVersion "1.2.0_pre3".toList).wildcard = false ∧
    QualRoundtrips (parseVersion "1.2.0_pre3".toList).qualifier ∧
    eqPy (parseVersion (renderVersion (parseVersion "1.2.0_pre3".toList)))
      (parseVersion "1.2.0_pre3".toList) = true :=
  ⟨by decide, by decide, by exact True.intro,
    c9_amended_roundtrip ("1.2.0_pre3".toList) (by decide) (by decide)
      (by exact True.intro)⟩

/-- Counterexample to C9 as stated: `VersionNumber("1_final0")` is valid and
non-wildcard (qualifier `("-1", 0, "final")`), but `str` renders it as
`1_final`, which re-parses with *no* qualifier, so
`VersionNumber(str(a)) == a` is `False`. -/
theorem c9_roundtrip_counterexample :
    (parseVersion "1_final0".toList).invalid = false ∧
    (parseVersion "1_final0".toList).wildcard = false ∧
    renderVersion (parseVersion "1_final0".toList) = "1_final".toList ∧
    eqPy (parseVersion (renderVersion (parseVersion "1_final0".toList)))
      (parseVersion "1_final0".toList) = false := by
  decide

end SummaryFinder
